import Mathlib

/-!
# Verification of the `rle_vec` crate (`src/lib.rs`)

A shallow embedding of the run-length-encoded vector `RleVec<T>` and its
operations, translated from `src/lib.rs`, together with proofs about the
specification's claims.

Modelling conventions:

* The backing `GapBuffer<InternalRun<T>>` is modelled by its logical content,
  a `List (InternalRun α)`.  All `GapBuffer` operations used by the crate
  (`push_back`, `pop_back`, `insert`, `remove`, `splice`, `range_mut`,
  indexing, `as_slices`) are defined on that logical content; the gap
  position is internal state that never affects results.  For `as_slices`
  (used only by `run_index`) we take the canonical gap-at-end position:
  the `lesser` slice is the whole run list and the `greater` slice is empty.
* The `u32` field `end` is modelled as `Nat`.  Arithmetic that can overflow
  or underflow `u32` on inputs an operation accepts carries an explicit
  check and the operation returns `none` there, matching the panic the
  crate documents for overflow ("Panics if the number of elements in the
  vector overflows") and the overflow-checked semantics its test suite runs
  under.  Arithmetic that cannot leave `u32` range on accepted inputs is
  translated as plain `Nat` arithmetic.
* Rust panics (out-of-bounds indexing, `unwrap`, overflow) make an
  operation return `none`; mutating methods have type `... → Option (RleVec α)`.
-/

/-- Largest value of the `u32` run-boundary type. -/
def u32Max : Nat := 2 ^ 32 - 1

/-- `InternalRun<T>` from the source: a stored run record.  `end` is a Lean
keyword, so the field is named `end_`; it is the inclusive logical index of
the run's last element. -/
structure InternalRun (α : Type) where
  end_ : Nat
  value : α
deriving Repr, DecidableEq

/-- `Run<T>` from the source: the derived view of a run yielded by run
iteration and consumed by `Extend<Run<T>>`. -/
structure Run (α : Type) where
  start : Nat
  len : Nat
  value : α
deriving Repr, DecidableEq

/-- `RleVec<T>`: the container owns the ordered table of run records. -/
structure RleVec (α : Type) where
  runs : List (InternalRun α)
deriving Repr, DecidableEq

/-- `RleVec::new`. -/
def RleVec.new : RleVec α := ⟨[]⟩

/-- `RleVec::len`: last record's `end + 1`, or `0` when empty. -/
def RleVec.len (rle : RleVec α) : Nat :=
  match rle.runs.getLast? with
  | some run => run.end_ + 1
  | none => 0

/-- `RleVec::is_empty`. -/
def RleVec.isEmpty (rle : RleVec α) : Bool := rle.runs.isEmpty

/-- `RleVec::clear`. -/
def RleVec.clear (_rle : RleVec α) : RleVec α := ⟨[]⟩

/-- `RleVec::runs_len`: the number of stored run records. -/
def RleVec.runs_len (rle : RleVec α) : Nat := rle.runs.length

/-- `RleVec::last`. -/
def RleVec.last (rle : RleVec α) : Option α :=
  (rle.runs.getLast?).map (·.value)

/-- `RleVec::push_n`: append `n` copies of `value`.  The source extends the
last record (`last.end += n`) when values agree, otherwise appends a record
with `end = last.end + n` (or `n - 1` on an empty table).  Both additions are
`u32` additions; the explicit `≤ u32Max` guard models the overflow failure
the crate documents for pushes.  `n` itself is a `u32`, so callers supply
`n ≤ u32Max`. -/
def RleVec.push_n [DecidableEq α] (rle : RleVec α) (n : Nat) (value : α) :
    Option (RleVec α) :=
  if n = 0 then some rle
  else
    match rle.runs.getLast? with
    | some lastRun =>
      if lastRun.value = value then
        if lastRun.end_ + n ≤ u32Max then
          some ⟨rle.runs.dropLast ++ [⟨lastRun.end_ + n, lastRun.value⟩]⟩
        else none
      else
        if lastRun.end_ + n ≤ u32Max then
          some ⟨rle.runs ++ [⟨lastRun.end_ + n, value⟩]⟩
        else none
    | none => some ⟨[⟨n - 1, value⟩]⟩

/-- `RleVec::push` delegates to `push_n(1, value)`. -/
def RleVec.push [DecidableEq α] (rle : RleVec α) (value : α) : Option (RleVec α) :=
  rle.push_n 1 value

/-- One traversal step of Rust `slice::binary_search_by` on the run table,
comparing stored ends against `target`.  The loop `while left < right` probes
`mid = left + (right - left) / 2` and narrows to `[mid+1, right)` on `Less`,
`[left, mid)` on `Greater`, returning `Ok(mid)` (`Sum.inl`) on `Equal` and
`Err(left)` (`Sum.inr`) at exhaustion.  Structural recursion on a fuel
argument keeps the definition kernel-computable; `fuel ≥ right - left` makes
the fuel case unreachable. -/
def bsearchGo (runs : List (InternalRun α)) (target : Nat) :
    Nat → Nat → Nat → Nat ⊕ Nat
  | 0, left, _ => Sum.inr left
  | fuel + 1, left, right =>
    if left < right then
      let mid := left + (right - left) / 2
      match runs[mid]? with
      | none => Sum.inr left
      | some r =>
        if r.end_ < target then bsearchGo runs target fuel (mid + 1) right
        else if target < r.end_ then bsearchGo runs target fuel left mid
        else Sum.inl mid
    else Sum.inr left

/-- Rust `slice::binary_search_by(|run| run.end.cmp(&index))` over a whole
slice. -/
def binarySearchEnds (runs : List (InternalRun α)) (target : Nat) : Nat ⊕ Nat :=
  bsearchGo runs target runs.length 0 runs.length

/-- `RleVec::run_index`: dispatch on `GapBuffer::as_slices` (modelled in the
canonical gap-at-end position, so `lesser` is the entire run list and
`greater` is empty), then binary search the segment containing `index`.
`none` models the out-of-bounds panic: with `index` beyond the last stored
end the search lands in the empty `greater` segment and `Err(0)` fails the
`i < target_slice.len()` guard. -/
def RleVec.run_index (rle : RleVec α) (index : Nat) : Option Nat :=
  match rle.runs.getLast? with
  | some lastRun =>
    if index ≤ lastRun.end_ then
      match binarySearchEnds rle.runs index with
      | Sum.inl i => some i
      | Sum.inr i => if i < rle.runs.length then some i else none
    else none
  | none => none

/-- `RleVec::index_info`: the containing run's position together with its
derived start and stored end. -/
def RleVec.index_info (rle : RleVec α) (index : Nat) : Option (Nat × Nat × Nat) :=
  match rle.run_index index with
  | none => none
  | some 0 => (rle.runs[0]?).map (fun r0 => (0, 0, r0.end_))
  | some (p + 1) =>
    match rle.runs[p]?, rle.runs[p + 1]? with
    | some prev, some cur => some (p + 1, prev.end_ + 1, cur.end_)
    | _, _ => none

/-- First-match scan used to state what a lookup should return: the value of
the first record whose stored end is `≥ i` (the record containing logical
index `i` when the table is well formed). -/
def valueAtRuns : List (InternalRun α) → Nat → Option α
  | [], _ => none
  | r :: rs, i => if i ≤ r.end_ then some r.value else valueAtRuns rs i

/-- The logical value at index `i`. -/
def RleVec.valueAt (rle : RleVec α) (i : Nat) : Option α :=
  valueAtRuns rle.runs i

/-- Derived start of the run following the records `L`. -/
def startAfter (L : List (InternalRun α)) : Nat :=
  match L.getLast? with
  | some r => r.end_ + 1
  | none => 0

/-- Invariant I1: stored ends strictly increase along the table. -/
def EndsSorted (l : List (InternalRun α)) : Prop :=
  List.Chain' (fun a b => a.end_ < b.end_) l

/-- Invariant I2: no two adjacent records carry equal values. -/
def ValuesDiffer (l : List (InternalRun α)) : Prop :=
  List.Chain' (fun a b => a.value ≠ b.value) l

/-- The run-table invariant asserted by the crate's own
`assert_postconditions` test helper: strictly increasing ends and no
adjacent equal values.  (I3, "last end = length - 1 iff non-empty", holds
definitionally for `RleVec.len`.) -/
def RleVec.Inv (rle : RleVec α) : Prop :=
  EndsSorted rle.runs ∧ ValuesDiffer rle.runs

/-- A kernel-reducible decision procedure for `List.Chain'`, so that the
invariant can be checked by `decide` on concrete tables. -/
def decChain' {β : Type} {R : β → β → Prop} [i : DecidableRel R] :
    (l : List β) → Decidable (List.Chain' R l)
  | [] => isTrue List.chain'_nil
  | [a] => isTrue (List.chain'_singleton a)
  | a :: b :: t =>
    match i a b, decChain' (b :: t) with
    | isTrue hab, isTrue ht => isTrue (List.chain'_cons.mpr ⟨hab, ht⟩)
    | isFalse hab, _ => isFalse (fun hc => hab (List.chain'_cons.mp hc).1)
    | _, isFalse ht => isFalse (fun hc => ht (List.chain'_cons.mp hc).2)

instance (l : List (InternalRun α)) : Decidable (EndsSorted l) :=
  decChain' l

instance [DecidableEq α] (l : List (InternalRun α)) : Decidable (ValuesDiffer l) :=
  decChain' l

instance [DecidableEq α] (rle : RleVec α) : Decidable rle.Inv :=
  @instDecidableAnd (EndsSorted rle.runs) (ValuesDiffer rle.runs)
    (decChain' rle.runs) (decChain' rle.runs)

/-- `RleVec::to_vec`'s loop: `p` holds the next uncovered logical index,
each record contributes `end - p + 1` clones.  The subtraction is a `u32`
subtraction in the source; it cannot underflow on a table satisfying I1. -/
def toVecAux (p : Nat) : List (InternalRun α) → List α
  | [] => []
  | r :: rs => List.replicate (r.end_ - p + 1) r.value ++ toVecAux (r.end_ + 1) rs

/-- `RleVec::to_vec`: flatten the table into the logical value sequence. -/
def RleVec.to_vec (rle : RleVec α) : List α := toVecAux 0 rle.runs

/-- Loop of `From<&[T]> for RleVec<T>`: `lastValue` is the value of the run
being accumulated and `i` the 0-based position (within `slice[1..]`) of the
last element examined so far; a record with `end = i` is emitted whenever
the scanned value changes, and a final record is emitted at the end. -/
def fromSliceAux [DecidableEq α] (lastValue : α) (i : Nat) :
    List α → List (InternalRun α)
  | [] => [⟨i, lastValue⟩]
  | v :: rest =>
    if v = lastValue then fromSliceAux lastValue (i + 1) rest
    else ⟨i, lastValue⟩ :: fromSliceAux v (i + 1) rest

/-- `From<&[T]> for RleVec<T>`: coalescing construction from a flat slice. -/
def RleVec.fromSlice [DecidableEq α] : List α → RleVec α
  | [] => ⟨[]⟩
  | v :: rest => ⟨fromSliceAux v 0 rest⟩

example : (RleVec.fromSlice [1, 1, 1, 1, 2, 2, 3]).runs =
    [⟨3, 1⟩, ⟨5, 2⟩, ⟨6, 3⟩] := by decide

example : (RleVec.fromSlice [1, 1, 1, 1, 2, 2, 3]).to_vec =
    [1, 1, 1, 1, 2, 2, 3] := by decide

example : (RleVec.fromSlice [1, 1, 2]).run_index 1 = some 0 := by decide

example : (RleVec.fromSlice [1, 1, 2]).run_index 2 = some 1 := by decide

example : (RleVec.fromSlice [1, 1, 2]).run_index 3 = none := by decide

example : (RleVec.fromSlice [1, 1, 2]).index_info 2 = some (1, 2, 2) := by decide

/-- `RleVec::set_internal`: point write given the containing run's position
`p`, derived `start` and stored `end_` (as computed by `index_info`).
Returns `none` on the (caller-prevented) out-of-range accesses where the
source would panic.  The source mutates in place; each branch below builds
the corresponding new run list:
* equal value: no-op;
* run of size 1: possibly join the previous run (`remove(p)` then
  `runs[p-1].end += 1`, `p -= 1`), then possibly join the next run
  (`remove(p)`), else overwrite the stored value;
* size > 1 at `start`: extend a matching previous run or insert a fresh
  record before `p`;
* size > 1 at `end`: shrink `p` and rely on a matching next run or insert a
  fresh record after `p`;
* interior: split into three records, cloning the tail. -/
def RleVec.set_internal [DecidableEq α] (rle : RleVec α) (index : Nat) (value : α)
    (p start end_ : Nat) : Option (RleVec α) :=
  match rle.runs[p]? with
  | none => none
  | some rp =>
    if rp.value = value then some rle
    else if end_ - start = 0 then
      -- join the previous run?
      let st1 : List (InternalRun α) × Nat :=
        if 0 < p then
          match rle.runs[p - 1]? with
          | some rprev =>
            if rprev.value = value then
              ((rle.runs.eraseIdx p).set (p - 1) ⟨rprev.end_ + 1, rprev.value⟩, p - 1)
            else (rle.runs, p)
          | none => (rle.runs, p)
        else (rle.runs, p)
      let l1 := st1.1
      let p1 := st1.2
      -- join the next run?
      if p1 < l1.length - 1 then
        match l1[p1 + 1]? with
        | some rnext =>
          if rnext.value = value then some ⟨l1.eraseIdx p1⟩
          else
            match l1[p1]? with
            | some cur => some ⟨l1.set p1 ⟨cur.end_, value⟩⟩
            | none => none
        | none => none
      else
        match l1[p1]? with
        | some cur => some ⟨l1.set p1 ⟨cur.end_, value⟩⟩
        | none => none
    else if index = start then
      if 0 < p then
        match rle.runs[p - 1]? with
        | some rprev =>
          if rprev.value = value then
            some ⟨rle.runs.set (p - 1) ⟨rprev.end_ + 1, rprev.value⟩⟩
          else some ⟨rle.runs.insertIdx p ⟨start, value⟩⟩
        | none => none
      else some ⟨rle.runs.insertIdx 0 ⟨0, value⟩⟩
    else if index = end_ then
      let l1 := rle.runs.set p ⟨rp.end_ - 1, rp.value⟩
      match rle.runs[p + 1]? with
      | some rnext =>
        if p < rle.runs.length - 1 ∧ rnext.value = value then some ⟨l1⟩
        else some ⟨l1.insertIdx (p + 1) ⟨end_, value⟩⟩
      | none => some ⟨l1.insertIdx (p + 1) ⟨end_, value⟩⟩
    else
      let l1 := rle.runs.set p ⟨index - 1, rp.value⟩
      some ⟨(l1.insertIdx (p + 1) ⟨index, value⟩).insertIdx (p + 2) ⟨end_, rp.value⟩⟩

/-- `RleVec::set`: locate the containing run, then `set_internal`. -/
def RleVec.set [DecidableEq α] (rle : RleVec α) (index : Nat) (value : α) :
    Option (RleVec α) :=
  match rle.index_info index with
  | some (p, start, end_) => rle.set_internal index value p start end_
  | none => none

/-- Modelled from the spec's range/point equivalence property: the loop
calling `set(i, v)` for `i` in `[s, s + len)` in increasing order. -/
def setLoop [DecidableEq α] (rle : RleVec α) (s : Nat) : Nat → α → Option (RleVec α)
  | 0, _ => some rle
  | l + 1, v => (rle.set s v).bind (fun r => setLoop r (s + 1) l v)

/-- `RleVec::set_hint`: trust an in-range hint whose derived span covers
`index`, otherwise fall back to a normal `set`; returns the run position
actually used. -/
def RleVec.set_hint [DecidableEq α] (rle : RleVec α) (index : Nat) (value : α)
    (hint : Nat) : Option (RleVec α × Nat) :=
  let fallback : Option (RleVec α × Nat) :=
    match rle.index_info index with
    | some (p, start, end_) =>
      (rle.set_internal index value p start end_).map (fun r => (r, p))
    | none => none
  match rle.runs[hint]? with
  | some hintedRun =>
    match (if 0 < hint then (rle.runs[hint - 1]?).map (·.end_ + 1) else some 0) with
    | some hintedStart =>
      if hintedStart ≤ index ∧ index ≤ hintedRun.end_ then
        (rle.set_internal index value hint hintedStart hintedRun.end_).map
          (fun r => (r, hint))
      else fallback
    | none => fallback
  | none => fallback

/-- `RleVec::get_hint`: the value at `index` together with the run position
actually used.  Unlike `set_hint` the hint is dereferenced unconditionally
(`&self.runs[run_index_hint]`), so an out-of-range hint panics (`none`) even
for an in-range `index`. -/
def RleVec.get_hint (rle : RleVec α) (index hint : Nat) : Option (α × Nat) :=
  match rle.runs[hint]? with
  | none => none
  | some hintedRun =>
    match (if 0 < hint then (rle.runs[hint - 1]?).map (·.end_ + 1) else some 0) with
    | none => none
    | some hintedStart =>
      if hintedStart ≤ index ∧ index ≤ hintedRun.end_ then
        some (hintedRun.value, hint)
      else
        match rle.run_index index with
        | some ri => (rle.runs[ri]?).map (fun r => (r.value, ri))
        | none => none

/-- `GapBuffer::splice(a..b, items)` on the logical content: replace the
records at positions `[a, b)` by `items`. -/
def spliceRuns (l : List (InternalRun α)) (a b : Nat)
    (items : List (InternalRun α)) : List (InternalRun α) :=
  l.take a ++ items ++ l.drop b

/-- `RleVec::set_range_internal`: overwrite the span `start..=end_` (already
snapped by `set_range`) with `value`, where the span starts inside run
`start_run_idx` and ends inside run `end_run_idx`.  The four
`(flush_left, flush_right)` cases replace, truncate or split records exactly
as the source's `match`; `none` models the caller-prevented index panics. -/
def RleVec.set_range_internal [DecidableEq α] (rle : RleVec α)
    (start start_run_idx end_ end_run_idx : Nat) (value : α) :
    Option (RleVec α) :=
  match rle.runs[end_run_idx]? with
  | none => none
  | some rend =>
    let flushLeftOpt : Option Bool :=
      if start_run_idx = 0 then some (start = 0)
      else (rle.runs[start_run_idx - 1]?).map (fun r => start = r.end_ + 1)
    match flushLeftOpt with
    | none => none
    | some flush_left =>
      let flush_right := end_ = rend.end_
      if start_run_idx = end_run_idx then
        match rle.runs[start_run_idx]? with
        | none => none
        | some rs =>
          if flush_left then
            if flush_right then
              some ⟨rle.runs.set start_run_idx ⟨rs.end_, value⟩⟩
            else
              some ⟨rle.runs.insertIdx start_run_idx ⟨end_, value⟩⟩
          else
            if flush_right then
              some ⟨(rle.runs.set start_run_idx ⟨start - 1, rs.value⟩).insertIdx
                (start_run_idx + 1) ⟨end_, value⟩⟩
            else
              some ⟨spliceRuns (rle.runs.set start_run_idx ⟨start - 1, rs.value⟩)
                (start_run_idx + 1) (start_run_idx + 1) [⟨end_, value⟩, rs]⟩
      else
        let range : Nat × Nat :=
          if flush_left then
            if flush_right then (start_run_idx, end_run_idx + 1)
            else (start_run_idx, end_run_idx)
          else
            if flush_right then (start_run_idx + 1, end_run_idx + 1)
            else (start_run_idx + 1, end_run_idx)
        let l1 := spliceRuns rle.runs range.1 range.2 [⟨end_, value⟩]
        if flush_left then some ⟨l1⟩
        else
          match l1[start_run_idx]? with
          | none => none
          | some rs => some ⟨l1.set start_run_idx ⟨start - 1, rs.value⟩⟩

/-- `RleVec::set_range(start, len, value)`: snap the span outward across
equal-valued neighbours (each side checked once, not chained), then delegate
to `set_range_internal`.  `len == 0` is a no-op and `len == 1` delegates to
`set`. -/
def RleVec.set_range [DecidableEq α] (rle : RleVec α) (start len : Nat)
    (value : α) : Option (RleVec α) :=
  if len = 0 then some rle
  else if len = 1 then rle.set start value
  else
    match rle.index_info start with
    | none => none
    | some (left_run_idx, left_run_start, left_run_end) =>
      match rle.runs[left_run_idx]? with
      | none => none
      | some lrun =>
        let end0 := start + len - 1
        -- snap start to the run's start when the value already matches
        let start1 :=
          if left_run_start ≤ start ∧ lrun.value = value then left_run_start
          else start
        -- absorb at most one preceding equal-valued run
        let stepL : Option (Nat × Nat) :=
          if start1 = left_run_start ∧ 0 < left_run_idx then
            match rle.runs[left_run_idx - 1]? with
            | none => none
            | some rprev =>
              if rprev.value = value then
                if left_run_idx = 1 then some (0, 0)
                else
                  match rle.runs[left_run_idx - 2]? with
                  | none => none
                  | some rprev2 => some (left_run_idx - 1, rprev2.end_ + 1)
              else some (left_run_idx, start1)
          else some (left_run_idx, start1)
        match stepL with
        | none => none
        | some (start_run_idx, start2) =>
          -- symmetric snapping of the end
          let stepR : Option (Nat × Nat) :=
            if end0 ≤ left_run_end then
              let end1 := if lrun.value = value then left_run_end else end0
              if left_run_end = end1 ∧ left_run_idx + 1 < rle.runs.length then
                match rle.runs[left_run_idx + 1]? with
                | none => none
                | some rnext =>
                  if rnext.value = value then some (left_run_idx + 1, rnext.end_)
                  else some (left_run_idx, end1)
              else some (left_run_idx, end1)
            else
              match rle.index_info end0 with
              | none => none
              | some (right_run_idx, _, right_run_end) =>
                match rle.runs[right_run_idx]? with
                | none => none
                | some rrun =>
                  let end1 :=
                    if end0 < right_run_end ∧ rrun.value = value then right_run_end
                    else end0
                  if right_run_end ≤ end1 ∧ right_run_idx + 1 < rle.runs.length then
                    match rle.runs[right_run_idx + 1]? with
                    | none => none
                    | some rnext =>
                      if rnext.value = value then some (right_run_idx + 1, rnext.end_)
                      else some (right_run_idx, end1)
                  else some (right_run_idx, end1)
          match stepR with
          | none => none
          | some (end_run_idx, end2) =>
            rle.set_range_internal start2 start_run_idx end2 end_run_idx value

/-- `RleVec::remove`: decrement every stored end from the containing run
onward (a `u32` subtraction: decrementing an end of `0` underflows, hence
the explicit guard), then for a size-1 run delete its record and — only when
`p > 0` and more than two records remain — merge the newly adjacent records
when their values agree.  The merge guard indexes `runs[p]`, which is out of
bounds (`none`) when the deleted record was the last one. -/
def RleVec.remove [DecidableEq α] (rle : RleVec α) (index : Nat) :
    Option (α × RleVec α) :=
  match rle.index_info index with
  | none => none
  | some (p, start, end_) =>
    if (rle.runs.drop p).any (fun r => r.end_ = 0) then none
    else
      let l1 := rle.runs.take p ++
        (rle.runs.drop p).map (fun r => ⟨r.end_ - 1, r.value⟩)
      if end_ - start = 0 then
        match l1[p]? with
        | none => none
        | some removed =>
          let l2 := l1.eraseIdx p
          if 0 < p ∧ 2 < l2.length then
            match l2[p - 1]?, l2[p]? with
            | some before, some after =>
              if before.value = after.value then
                some (removed.value, ⟨(l2.set (p - 1) ⟨after.end_, before.value⟩).eraseIdx p⟩)
              else some (removed.value, ⟨l2⟩)
            | _, _ => none
          else some (removed.value, ⟨l2⟩)
      else
        match l1[p]? with
        | none => none
        | some cur => some (cur.value, ⟨l1⟩)

/-- `RleVec::insert`: at `index == len` delegate to `push`; otherwise open a
slot by incrementing every stored end from the containing run onward (a
`u32` addition, guarded against overflow), then either rely on the widened
run, merge into a matching previous run, insert a fresh record, or split the
run in three. -/
def RleVec.insert [DecidableEq α] (rle : RleVec α) (index : Nat) (value : α) :
    Option (RleVec α) :=
  if index = rle.len then rle.push value
  else
    match rle.index_info index with
    | none => none
    | some (p, start, end_) =>
      if (rle.runs.drop p).any (fun r => r.end_ = u32Max) then none
      else
        let l1 := rle.runs.take p ++
          (rle.runs.drop p).map (fun r => ⟨r.end_ + 1, r.value⟩)
        match l1[p]? with
        | none => none
        | some rp =>
          if rp.value = value then some ⟨l1⟩
          else if index = start then
            if 0 < p then
              match l1[p - 1]? with
              | none => none
              | some rprev =>
                if rprev.value = value then
                  some ⟨l1.set (p - 1) ⟨rprev.end_ + 1, rprev.value⟩⟩
                else some ⟨l1.insertIdx p ⟨index, value⟩⟩
            else some ⟨l1.insertIdx p ⟨index, value⟩⟩
          else
            let l2 := l1.set p ⟨index - 1, rp.value⟩
            some ⟨(l2.insertIdx (p + 1) ⟨index, value⟩).insertIdx (p + 2)
              ⟨end_ + 1, rp.value⟩⟩

/-- `Extend<Run<T>> for RleVec<T>`: append each supplied run via `push_n`
(which itself coalesces with the trailing record when values agree), the
run's `start` field being ignored. -/
def RleVec.extendRuns [DecidableEq α] (rle : RleVec α) :
    List (Run α) → Option (RleVec α)
  | [] => some rle
  | r :: rs =>
    match rle.push_n r.len r.value with
    | some rle' => rle'.extendRuns rs
    | none => none

/-- `Iter<'a, T>`: the double-ended value iterator's cursor state over a
fixed `RleVec`. -/
structure Iter (α : Type) where
  rle : RleVec α
  run_index : Nat
  index : Nat
  index_back : Nat
  run_index_back : Nat
deriving Repr, DecidableEq

/-- `RleVec::iter`: forward cursor at 0, backward cursor one past the end
(`index_back = len`, `run_index_back = runs_len.saturating_sub(1)`). -/
def RleVec.iter (rle : RleVec α) : Iter α :=
  { rle := rle
    run_index := 0
    index := 0
    index_back := rle.len
    run_index_back := rle.runs.length - 1 }

/-- `Iterator::next for Iter`: `None` once the cursors meet, otherwise yield
the current run's value, advance `index` and step `run_index` past a
finished run. -/
def Iter.next (it : Iter α) : Option (α × Iter α) :=
  if it.index = it.index_back then none
  else
    match it.rle.runs[it.run_index]? with
    | none => none
    | some run =>
      let index' := it.index + 1
      let runIndex' := if run.end_ < index' then it.run_index + 1 else it.run_index
      some (run.value, { it with index := index', run_index := runIndex' })

/-- `DoubleEndedIterator::next_back for Iter`: `None` once the cursors meet,
otherwise retreat `index_back`, step `run_index_back` down when the new
position falls into the previous run, and yield that run's value. -/
def Iter.next_back (it : Iter α) : Option (α × Iter α) :=
  if it.index_back = it.index then none
  else
    let indexBack' := it.index_back - 1
    match
      (if 0 < it.run_index_back then
        (it.rle.runs[it.run_index_back - 1]?).map (fun r =>
          if indexBack' ≤ r.end_ then it.run_index_back - 1 else it.run_index_back)
      else some it.run_index_back) with
    | none => none
    | some runBack' =>
      match it.rle.runs[runBack']? with
      | none => none
      | some r =>
        some (r.value,
          { it with index_back := indexBack', run_index_back := runBack' })

/-- Interleaved traversal: apply the listed cursor directions in order
(`true` = `next`, `false` = `next_back`), collecting the values each cursor
yielded, in order. -/
def Iter.runOps (it : Iter α) : List Bool → List α × List α × Iter α
  | [] => ([], [], it)
  | true :: ops =>
    match it.next with
    | some (v, it') =>
      let r := it'.runOps ops
      (v :: r.1, r.2.1, r.2.2)
    | none => it.runOps ops
  | false :: ops =>
    match it.next_back with
    | some (v, it') =>
      let r := it'.runOps ops
      (r.1, v :: r.2.1, r.2.2)
    | none => it.runOps ops

/-- The cursor invariant maintained by `next`/`next_back`: the forward
cursor's run contains `index`, the backward cursor's run contains
`index_back - 1`, and the cursors never cross. -/
def IterInv (rle : RleVec α) (it : Iter α) : Prop :=
  it.rle = rle ∧ it.index ≤ it.index_back ∧ it.index_back ≤ rle.len ∧
  (it.index < it.index_back →
    ∃ r, rle.runs[it.run_index]? = some r ∧
      startAfter (rle.runs.take it.run_index) ≤ it.index ∧ it.index ≤ r.end_) ∧
  (it.index < it.index_back →
    ∃ r, rle.runs[it.run_index_back]? = some r ∧
      startAfter (rle.runs.take it.run_index_back) ≤ it.index_back ∧
      it.index_back ≤ r.end_ + 1)

-- Sanity checks: re-runs of the crate's own unit tests against the model.

example :
    ((RleVec.new.push_n 10 2).bind fun r => some (r.len, r.runs_len)) =
      some (10, 1) := by decide

example :
    ((RleVec.fromSlice [1, 1, 1, 1, 2, 2, 3]).set 2 3).map RleVec.to_vec =
      some [1, 1, 3, 1, 2, 2, 3] := by decide

example :
    ((RleVec.fromSlice [1, 1, 1, 1, 2, 2, 3]).set 2 3).map RleVec.runs_len =
      some 5 := by decide

example :
    ((RleVec.fromSlice [1, 1, 2, 2, 3]).set_range 3 2 4).map RleVec.to_vec =
      some [1, 1, 2, 4, 4] := by decide

example :
    ((RleVec.fromSlice [0, 0, 0, 0, 0]).set_range 0 2 0).map RleVec.to_vec =
      some [0, 0, 0, 0, 0] := by decide

example :
    ((RleVec.fromSlice [0, 1, 2, 3, 3]).set_range 3 2 2).map RleVec.to_vec =
      some [0, 1, 2, 2, 2] := by decide

example :
    ((RleVec.fromSlice [0, 1, 2, 2, 2]).set_range 2 3 3).map RleVec.to_vec =
      some [0, 1, 3, 3, 3] := by decide

example :
    ((RleVec.fromSlice [1, 1, 2, 4, 4]).set_range 2 2 3).map RleVec.to_vec =
      some [1, 1, 3, 3, 4] := by decide

example :
    ((RleVec.fromSlice [0, 0, 0, 0, 0]).set_range 1 2 1).map RleVec.to_vec =
      some [0, 1, 1, 0, 0] := by decide

example :
    ((RleVec.fromSlice [0, 1, 1, 0, 2]).set_range 1 2 0).map RleVec.to_vec =
      some [0, 0, 0, 0, 2] := by decide

example :
    ((RleVec.fromSlice [1, 1, 1, 1, 1, 2, 1, 1, 1, 4, 4, 3, 3]).remove 5).map
        (fun r => (r.1, r.2.to_vec, r.2.runs_len)) =
      some (2, [1, 1, 1, 1, 1, 1, 1, 1, 4, 4, 3, 3], 3) := by decide

example :
    ((RleVec.fromSlice [1, 1, 1, 1, 2, 1, 1, 4, 4]).remove 4).map
        (fun r => (r.1, r.2.to_vec, r.2.runs_len)) =
      some (2, [1, 1, 1, 1, 1, 1, 4, 4], 2) := by decide

example :
    ((RleVec.fromSlice [1, 1, 1, 1, 2, 2, 3]).insert 2 3).map
        (fun r => (r.to_vec, r.runs_len)) =
      some ([1, 1, 3, 1, 1, 2, 2, 3], 5) := by decide

example :
    ((RleVec.fromSlice [0, 0, 0, 1, 1, 1, 1, 1, 1, 1, 3, 3, 1, 0, 99, 99, 9]).insert 0 1).map
        RleVec.to_vec =
      some [1, 0, 0, 0, 1, 1, 1, 1, 1, 1, 1, 3, 3, 1, 0, 99, 99, 9] := by decide

example :
    ((RleVec.fromSlice [0, 2, 0, 1, 1, 1, 1, 2, 2, 3]).insert 4 4).map
        RleVec.to_vec =
      some [0, 2, 0, 1, 4, 1, 1, 1, 2, 2, 3] := by decide

example :
    ((RleVec.fromSlice [0, 1, 1, 3, 3, 9, 99]).iter.runOps
        [false, true, true, false, false, false, true, false, true]).1 =
      [0, 1, 1] := by decide

example :
    ((RleVec.fromSlice [0, 1, 1, 3, 3, 9, 99]).iter.runOps
        [false, true, true, false, false, false, true, false, true]).2.1 =
      [99, 9, 3, 3] := by decide

example :
    (RleVec.extendRuns (RleVec.fromSlice [1, 1]) [⟨0, 2, 1⟩, ⟨0, 1, 2⟩]).map
        RleVec.runs =
      some [⟨3, 1⟩, ⟨4, 2⟩] := by decide

/-! ## List positioning helpers

Small lemmas describing `List.set`, `List.eraseIdx`, `List.insertIdx`,
`List.take`/`List.drop` and indexing at the boundary of an append, used to
compute the effect of the table surgeries. -/

theorem eraseIdx_append_cons (L₁ : List β) (r : β) (L₂ : List β) :
    (L₁ ++ r :: L₂).eraseIdx L₁.length = L₁ ++ L₂ := by
  induction L₁ with
  | nil => rfl
  | cons a t ih => simp [List.eraseIdx, ih]

theorem set_append_cons (L₁ : List β) (r x : β) (L₂ : List β) :
    (L₁ ++ r :: L₂).set L₁.length x = L₁ ++ x :: L₂ := by
  induction L₁ with
  | nil => rfl
  | cons a t ih => simp [List.set, ih]

theorem insertIdx_append (L₁ : List β) (x : β) (L₂ : List β) :
    (L₁ ++ L₂).insertIdx L₁.length x = L₁ ++ x :: L₂ := by
  induction L₁ with
  | nil => rfl
  | cons a t ih =>
    show a :: (t ++ L₂).insertIdx t.length x = _
    rw [ih]
    rfl

theorem getElem?_append_cons (L₁ : List β) (r : β) (L₂ : List β) :
    (L₁ ++ r :: L₂)[L₁.length]? = some r := by
  induction L₁ with
  | nil => simp
  | cons a t ih => simpa using ih

theorem take_append_eq (L₁ L₂ : List β) : (L₁ ++ L₂).take L₁.length = L₁ := by
  induction L₁ with
  | nil => rfl
  | cons a t ih => simp [ih]

theorem drop_append_eq (L₁ L₂ : List β) : (L₁ ++ L₂).drop L₁.length = L₂ := by
  induction L₁ with
  | nil => rfl
  | cons a t ih => simp [ih]

theorem getElem?_append_lt (L₁ L₂ : List β) (j : Nat) (hj : j < L₁.length) :
    (L₁ ++ L₂)[j]? = L₁[j]? := by
  induction L₁ generalizing j with
  | nil => simp at hj
  | cons a t ih =>
    cases j with
    | zero => simp
    | succ j => simpa using ih j (by simpa using hj)

theorem getElem?_append_ge (L₁ L₂ : List β) (j : Nat) (hj : L₁.length ≤ j) :
    (L₁ ++ L₂)[j]? = L₂[j - L₁.length]? := by
  induction L₁ generalizing j with
  | nil => simp
  | cons a t ih =>
    cases j with
    | zero => simp at hj
    | succ j => simpa using ih j (by simpa using hj)

/-! ## `valueAtRuns` lemmas -/

@[simp]
theorem valueAtRuns_nil (i : Nat) : valueAtRuns ([] : List (InternalRun α)) i = none :=
  rfl

theorem valueAtRuns_cons (r : InternalRun α) (rs : List (InternalRun α)) (i : Nat) :
    valueAtRuns (r :: rs) i =
      if i ≤ r.end_ then some r.value else valueAtRuns rs i := rfl

theorem valueAtRuns_append (A B : List (InternalRun α)) (i : Nat) :
    valueAtRuns (A ++ B) i =
      match valueAtRuns A i with
      | some v => some v
      | none => valueAtRuns B i := by
  induction A with
  | nil => simp
  | cons r rs ih =>
    by_cases h : i ≤ r.end_ <;> simp [valueAtRuns_cons, h, ih]

theorem valueAtRuns_eq_none (A : List (InternalRun α)) (i : Nat)
    (h : ∀ x ∈ A, x.end_ < i) : valueAtRuns A i = none := by
  induction A with
  | nil => rfl
  | cons r rs ih =>
    have hr := h r (by simp)
    rw [valueAtRuns_cons, if_neg (by omega)]
    exact ih (fun x hx => h x (by simp [hx]))

theorem valueAtRuns_append_of_lt (A B : List (InternalRun α)) (i : Nat)
    (h : ∀ x ∈ A, x.end_ < i) :
    valueAtRuns (A ++ B) i = valueAtRuns B i := by
  rw [valueAtRuns_append, valueAtRuns_eq_none A i h]

theorem valueAtRuns_append_left (A B : List (InternalRun α)) (i : Nat) (v : α)
    (h : valueAtRuns A i = some v) : valueAtRuns (A ++ B) i = some v := by
  rw [valueAtRuns_append, h]

/-! ## Sortedness consequences -/

theorem endsSorted_pairwise {l : List (InternalRun α)} (h : EndsSorted l) :
    l.Pairwise (fun a b => a.end_ < b.end_) := by
  have : IsTrans (InternalRun α) (fun a b => a.end_ < b.end_) :=
    ⟨fun _ _ _ hab hbc => Nat.lt_trans hab hbc⟩
  exact List.chain'_iff_pairwise.mp h

theorem endsSorted_append_left {A B : List (InternalRun α)}
    (h : EndsSorted (A ++ B)) : EndsSorted A :=
  List.Chain'.left_of_append h

theorem endsSorted_append_right {A B : List (InternalRun α)}
    (h : EndsSorted (A ++ B)) : EndsSorted B :=
  List.Chain'.right_of_append h

/-- In a sorted decomposition `L₁ ++ r :: L₂`, every record of `L₁` ends
before `r` does. -/
theorem endsSorted_prefix_lt {L₁ L₂ : List (InternalRun α)} {r : InternalRun α}
    (h : EndsSorted (L₁ ++ r :: L₂)) : ∀ x ∈ L₁, x.end_ < r.end_ := by
  intro x hx
  have hpw := endsSorted_pairwise h
  rw [List.pairwise_append] at hpw
  exact hpw.2.2 x hx r (by simp)

/-- In a sorted decomposition `L₁ ++ r :: L₂`, every record of `L₂` ends
after `r` does. -/
theorem endsSorted_suffix_gt {L₁ L₂ : List (InternalRun α)} {r : InternalRun α}
    (h : EndsSorted (L₁ ++ r :: L₂)) : ∀ x ∈ L₂, r.end_ < x.end_ := by
  intro x hx
  have hpw := endsSorted_pairwise h
  rw [List.pairwise_append] at hpw
  have := hpw.2.1
  rw [List.pairwise_cons] at this
  exact this.1 x hx

@[simp]
theorem startAfter_nil : startAfter ([] : List (InternalRun α)) = 0 := rfl

theorem startAfter_le_of_lt {L : List (InternalRun α)} {i : Nat}
    (h : ∀ x ∈ L, x.end_ < i) : startAfter L ≤ i := by
  cases hL : L.getLast? with
  | none => simp [startAfter, hL]
  | some r =>
    have hmem : r ∈ L := by
      have hr : r ∈ L.getLast? := by simp [hL, Option.mem_def]
      obtain ⟨hne, rfl⟩ := List.mem_getLast?_eq_getLast hr
      exact List.getLast_mem hne
    have := h r hmem
    simp only [startAfter, hL]
    omega

/-! ## Binary search and lookup correctness -/

theorem pairwise_ends_getElem? {runs : List (InternalRun α)}
    (hpw : runs.Pairwise (fun a b => a.end_ < b.end_)) {i j : Nat} (hij : i < j)
    {x y : InternalRun α} (hx : runs[i]? = some x) (hy : runs[j]? = some y) :
    x.end_ < y.end_ := by
  obtain ⟨hi, rfl⟩ := List.getElem?_eq_some.mp hx
  obtain ⟨hj, rfl⟩ := List.getElem?_eq_some.mp hy
  exact List.pairwise_iff_getElem.mp hpw i j hi hj hij

theorem bsearchGo_succ_eq (runs : List (InternalRun α)) (target fuel left right : Nat)
    (r : InternalRun α) (hlt : left < right)
    (hr : runs[left + (right - left) / 2]? = some r) :
    bsearchGo runs target (fuel + 1) left right =
      if r.end_ < target then
        bsearchGo runs target fuel (left + (right - left) / 2 + 1) right
      else if target < r.end_ then
        bsearchGo runs target fuel left (left + (right - left) / 2)
      else Sum.inl (left + (right - left) / 2) := by
  simp only [bsearchGo, if_pos hlt, hr]

/-- Correctness of the binary-search loop on a table with strictly
increasing ends: whatever constructor the result uses, its payload `pos` is
bounded by the table length, everything before `pos` ends before `target`
and the record at `pos` (if any) ends at or after `target`. -/
theorem bsearchGo_spec (runs : List (InternalRun α)) (target : Nat)
    (hpw : runs.Pairwise (fun a b => a.end_ < b.end_)) :
    ∀ fuel left right, left ≤ right → right ≤ runs.length → right - left ≤ fuel →
    (∀ j, j < left → ∀ x, runs[j]? = some x → x.end_ < target) →
    (∀ j, right ≤ j → ∀ x, runs[j]? = some x → target ≤ x.end_) →
    ∃ pos, (bsearchGo runs target fuel left right = Sum.inl pos ∨
            bsearchGo runs target fuel left right = Sum.inr pos) ∧
      pos ≤ runs.length ∧
      (∀ j, j < pos → ∀ x, runs[j]? = some x → x.end_ < target) ∧
      (∀ x, runs[pos]? = some x → target ≤ x.end_) := by
  intro fuel
  induction fuel with
  | zero =>
    intro left right hlr hrlen hfuel hleft hright
    have : left = right := by omega
    subst this
    exact ⟨left, Or.inr rfl, by omega, hleft, fun x hx => hright left (le_refl _) x hx⟩
  | succ fuel ih =>
    intro left right hlr hrlen hfuel hleft hright
    by_cases hlt : left < right
    · have hmid : left + (right - left) / 2 < right := by omega
      have hmidlen : left + (right - left) / 2 < runs.length := by omega
      have hrsome : runs[left + (right - left) / 2]? =
          some (runs[left + (right - left) / 2]) :=
        List.getElem?_eq_getElem hmidlen
      rw [bsearchGo_succ_eq runs target fuel left right _ hlt hrsome]
      set mid := left + (right - left) / 2 with hmiddef
      set r := runs[mid] with hrdef
      by_cases h1 : r.end_ < target
      · rw [if_pos h1]
        refine ih (mid + 1) right (by omega) hrlen (by omega) ?_ hright
        intro j hj x hx
        rcases Nat.lt_or_ge j mid with hjm | hjm
        · exact Nat.lt_trans (pairwise_ends_getElem? hpw hjm hx hrsome) h1
        · have : j = mid := by omega
          subst this
          rw [hx] at hrsome
          cases hrsome
          exact h1
      · rw [if_neg h1]
        by_cases h2 : target < r.end_
        · rw [if_pos h2]
          refine ih left mid (by omega) (by omega) (by omega) hleft ?_
          intro j hj x hx
          rcases Nat.lt_or_ge mid j with hjm | hjm
          · exact Nat.le_of_lt (Nat.lt_trans h2 (pairwise_ends_getElem? hpw hjm hrsome hx))
          · have : j = mid := by omega
            subst this
            rw [hx] at hrsome
            cases hrsome
            exact Nat.le_of_lt h2
        · rw [if_neg h2]
          refine ⟨mid, Or.inl rfl, by omega, ?_, ?_⟩
          · intro j hj x hx
            have := pairwise_ends_getElem? hpw hj hx hrsome
            omega
          · intro x hx
            rw [hx] at hrsome
            cases hrsome
            omega
    · have : left = right := by omega
      subst this
      rw [show bsearchGo runs target (fuel + 1) left left = Sum.inr left from by
        simp [bsearchGo, hlt]]
      exact ⟨left, Or.inr rfl, by omega, hleft, fun x hx => hright left (le_refl _) x hx⟩

/-- `run_index` on a sorted table finds, for any in-range index, the
decomposition at the unique containing run: a prefix of runs that all end
before `i`, then the first run whose end is `≥ i`. -/
theorem run_index_decomp (rle : RleVec α) (hs : EndsSorted rle.runs)
    {i : Nat} (hi : i < rle.len) :
    ∃ L₁ r L₂, rle.runs = L₁ ++ r :: L₂ ∧
      rle.run_index i = some L₁.length ∧
      (∀ x ∈ L₁, x.end_ < i) ∧ i ≤ r.end_ := by
  have hpw := endsSorted_pairwise hs
  obtain ⟨lastRun, hlast, hile⟩ :
      ∃ lastRun, rle.runs.getLast? = some lastRun ∧ i ≤ lastRun.end_ := by
    cases h : rle.runs.getLast? with
    | none =>
      simp only [RleVec.len, h] at hi
      omega
    | some lastRun =>
      simp only [RleVec.len, h] at hi
      exact ⟨lastRun, rfl, by omega⟩
  have hne : rle.runs ≠ [] := by
    intro h
    rw [h] at hlast
    simp at hlast
  obtain ⟨pos, hres, hposle, hbefore, hat⟩ :=
    bsearchGo_spec rle.runs i hpw rle.runs.length 0 rle.runs.length
      (Nat.zero_le _) (le_refl _) (by omega)
      (by intro j hj x hx; omega)
      (by
        intro j hj x hx
        rw [List.getElem?_eq_none hj] at hx
        cases hx)
  have hlastidx : rle.runs[rle.runs.length - 1]? = some lastRun := by
    rw [← List.getLast?_eq_getElem?]
    exact hlast
  have hposlt : pos < rle.runs.length := by
    by_contra hge
    have hlt : rle.runs.length - 1 < pos := by
      have : 0 < rle.runs.length := List.length_pos.mpr hne
      omega
    have := hbefore _ hlt lastRun hlastidx
    omega
  have hsome : rle.run_index i = some pos := by
    simp only [RleVec.run_index, hlast]
    rw [if_pos hile]
    simp only [binarySearchEnds]
    rcases hres with h | h
    · rw [h]
    · rw [h]
      simp only [if_pos hposlt]
  refine ⟨rle.runs.take pos, rle.runs[pos], rle.runs.drop (pos + 1), ?_, ?_, ?_, ?_⟩
  · rw [← List.drop_eq_getElem_cons hposlt, List.take_append_drop]
  · rw [hsome, List.length_take, Nat.min_eq_left (Nat.le_of_lt hposlt)]
  · intro x hx
    obtain ⟨n, hn, rfl⟩ := List.getElem_of_mem hx
    have hnpos : n < pos := by
      have := List.length_take pos rle.runs
      omega
    have hx' : rle.runs[n]? = some ((rle.runs.take pos)[n]) := by
      rw [← List.getElem?_take_of_lt hnpos]
      exact List.getElem?_eq_getElem hn
    exact hbefore n hnpos _ hx'
  · exact hat _ (List.getElem?_eq_getElem hposlt)

theorem getLast?_mem_of_eq {L : List β} {r : β} (h : L.getLast? = some r) :
    r ∈ L := by
  have hr : r ∈ L.getLast? := by simp [h, Option.mem_def]
  obtain ⟨hne, rfl⟩ := List.mem_getLast?_eq_getLast hr
  exact List.getLast_mem hne

/-- `index_info` on a sorted table: position, derived start and stored end
of the containing run, as a decomposition of the run list. -/
theorem index_info_decomp (rle : RleVec α) (hs : EndsSorted rle.runs)
    {i : Nat} (hi : i < rle.len) :
    ∃ L₁ r L₂, rle.runs = L₁ ++ r :: L₂ ∧
      rle.index_info i = some (L₁.length, startAfter L₁, r.end_) ∧
      (∀ x ∈ L₁, x.end_ < i) ∧ i ≤ r.end_ ∧ startAfter L₁ ≤ i := by
  obtain ⟨L₁, r, L₂, hruns, hridx, hlt, hle⟩ := run_index_decomp rle hs hi
  refine ⟨L₁, r, L₂, hruns, ?_, hlt, hle, startAfter_le_of_lt hlt⟩
  rcases List.eq_nil_or_concat L₁ with rfl | ⟨M, q, rfl⟩
  · simp only [RleVec.index_info, hridx, List.length_nil]
    simp only [List.nil_append] at hruns
    rw [hruns]
    simp [startAfter]
  · simp only [List.concat_eq_append] at hruns hridx ⊢
    have hlen : (M ++ [q]).length = M.length + 1 := by simp
    have hq : rle.runs[M.length]? = some q := by
      rw [hruns, List.append_assoc, List.singleton_append]
      exact getElem?_append_cons M q (r :: L₂)
    have hr : rle.runs[M.length + 1]? = some r := by
      rw [hruns, ← hlen]
      exact getElem?_append_cons (M ++ [q]) r L₂
    simp only [RleVec.index_info, hridx, hlen]
    simp only [hq, hr]
    simp [startAfter, List.getLast?_concat]

/-! ## Flattening: `to_vec` read off pointwise through `valueAtRuns` -/

theorem toVecAux_getElem? (L : List (InternalRun α)) (p : Nat)
    (hs : EndsSorted L) (hp : ∀ x ∈ L.head?, p ≤ x.end_) (k : Nat) :
    (toVecAux p L)[k]? = valueAtRuns L (p + k) := by
  induction L generalizing p k with
  | nil => simp [toVecAux]
  | cons r rs ih =>
    have hpr : p ≤ r.end_ := hp r (by simp [Option.mem_def])
    have hs' : EndsSorted rs := List.Chain'.tail hs
    have hnext : ∀ x ∈ rs.head?, r.end_ + 1 ≤ x.end_ := by
      intro x hx
      cases rs with
      | nil => simp at hx
      | cons s t =>
        simp only [List.head?_cons, Option.mem_def, Option.some.injEq] at hx
        subst hx
        have := List.chain'_cons.mp hs
        omega
    rw [show toVecAux p (r :: rs) =
        List.replicate (r.end_ - p + 1) r.value ++ toVecAux (r.end_ + 1) rs from rfl]
    by_cases hk : k < r.end_ - p + 1
    · rw [getElem?_append_lt _ _ k (by simpa using hk)]
      rw [List.getElem?_replicate, if_pos hk, valueAtRuns_cons, if_pos (by omega)]
    · rw [getElem?_append_ge _ _ k (by simpa using hk)]
      rw [List.length_replicate]
      rw [ih (r.end_ + 1) hs' hnext (k - (r.end_ - p + 1))]
      rw [valueAtRuns_cons, if_neg (by omega)]
      congr 1
      omega

theorem toVecAux_length (L : List (InternalRun α)) (p : Nat)
    (hs : EndsSorted L) (hp : ∀ x ∈ L.head?, p ≤ x.end_) :
    (toVecAux p L).length = startAfter L - p := by
  induction L generalizing p with
  | nil => simp [toVecAux]
  | cons r rs ih =>
    have hpr : p ≤ r.end_ := hp r (by simp [Option.mem_def])
    have hs' : EndsSorted rs := List.Chain'.tail hs
    have hnext : ∀ x ∈ rs.head?, r.end_ + 1 ≤ x.end_ := by
      intro x hx
      cases rs with
      | nil => simp at hx
      | cons s t =>
        simp only [List.head?_cons, Option.mem_def, Option.some.injEq] at hx
        subst hx
        have := List.chain'_cons.mp hs
        omega
    rw [show toVecAux p (r :: rs) =
        List.replicate (r.end_ - p + 1) r.value ++ toVecAux (r.end_ + 1) rs from rfl]
    rw [List.length_append, List.length_replicate, ih (r.end_ + 1) hs' hnext]
    cases rs with
    | nil => simp [startAfter]; omega
    | cons s t =>
      have hgt : r.end_ < s.end_ := (List.chain'_cons.mp hs).1
      have hsa : startAfter (r :: s :: t) = startAfter (s :: t) := by
        simp [startAfter]
      rw [hsa]
      have hbound : s.end_ + 1 ≤ startAfter (s :: t) := by
        cases hlast : (s :: t).getLast? with
        | none => simp at hlast
        | some q =>
          have hmem := getLast?_mem_of_eq hlast
          simp only [startAfter, hlast]
          rcases List.mem_cons.mp hmem with rfl | hq
          · omega
          · have := @endsSorted_suffix_gt _ ([] : List (InternalRun α)) t s
              (by simpa using hs') q hq
            omega
      omega

theorem len_eq_startAfter (rle : RleVec α) : rle.len = startAfter rle.runs := by
  unfold RleVec.len startAfter
  cases rle.runs.getLast? <;> rfl

theorem to_vec_getElem? (rle : RleVec α) (hs : EndsSorted rle.runs) (k : Nat) :
    rle.to_vec[k]? = rle.valueAt k := by
  unfold RleVec.to_vec RleVec.valueAt
  rw [toVecAux_getElem? rle.runs 0 hs (by intro x _; omega) k]
  simp

theorem to_vec_length (rle : RleVec α) (hs : EndsSorted rle.runs) :
    rle.to_vec.length = rle.len := by
  unfold RleVec.to_vec
  rw [toVecAux_length rle.runs 0 hs (by intro x _; omega), len_eq_startAfter]
  omega

/-- Two sorted tables with the same pointwise reads flatten identically. -/
theorem to_vec_eq_of_valueAt (rle rle' : RleVec α) (hs : EndsSorted rle.runs)
    (hs' : EndsSorted rle'.runs) (h : ∀ j, rle.valueAt j = rle'.valueAt j) :
    rle.to_vec = rle'.to_vec := by
  apply List.ext_getElem?
  intro n
  rw [to_vec_getElem? rle hs n, to_vec_getElem? rle' hs' n, h n]

/-! ## Pointwise reasoning toolkit -/

theorem valueAtRuns_some_lt {A : List (InternalRun α)} {j : Nat} {w : α}
    (h : valueAtRuns A j = some w) {i : Nat} (hA : ∀ x ∈ A, x.end_ < i) :
    j < i := by
  induction A with
  | nil => simp at h
  | cons r rs ih =>
    rw [valueAtRuns_cons] at h
    by_cases hj : j ≤ r.end_
    · have := hA r (by simp)
      omega
    · rw [if_neg hj] at h
      exact ih h (fun x hx => hA x (by simp [hx]))

theorem valueAtRuns_none_ge {A : List (InternalRun α)} {j : Nat}
    (h : valueAtRuns A j = none) : startAfter A ≤ j := by
  induction A with
  | nil => simp [startAfter]
  | cons r rs ih =>
    rw [valueAtRuns_cons] at h
    by_cases hj : j ≤ r.end_
    · rw [if_pos hj] at h
      cases h
    · rw [if_neg hj] at h
      cases rs with
      | nil => simp [startAfter]; omega
      | cons s t =>
        have : startAfter (r :: s :: t) = startAfter (s :: t) := by
          simp [startAfter]
        rw [this]
        exact ih h

/-- Reduce a pointwise write-effect goal over `P ++ A` vs `P ++ B` to the
positions at or beyond the prefix `P` (whose records all end before the
written index `i`). -/
theorem pointwise_step (P A B : List (InternalRun α)) (i : Nat) (v : α)
    (hP : ∀ x ∈ P, x.end_ < i)
    (h : ∀ j, startAfter P ≤ j →
      valueAtRuns A j = if j = i then some v else valueAtRuns B j) :
    ∀ j, valueAtRuns (P ++ A) j =
      if j = i then some v else valueAtRuns (P ++ B) j := by
  intro j
  rw [valueAtRuns_append, valueAtRuns_append]
  cases hPj : valueAtRuns P j with
  | some w =>
    have := valueAtRuns_some_lt hPj hP
    rw [if_neg (by omega)]
  | none => exact h j (valueAtRuns_none_ge hPj)

theorem startAfter_cons_cons (r s : InternalRun α) (t : List (InternalRun α)) :
    startAfter (r :: s :: t) = startAfter (s :: t) := by
  simp [startAfter]

theorem startAfter_append_cons (A : List (InternalRun α)) (r : InternalRun α)
    (B : List (InternalRun α)) :
    startAfter (A ++ r :: B) = startAfter (r :: B) := by
  rw [startAfter, startAfter, List.getLast?_append_cons]

/-- `Chain'` facts packaged for a decomposition `L₁ ++ r :: L₂`. -/
theorem chain'_decomp {R : β → β → Prop} {L₁ : List β} {r : β} {L₂ : List β}
    (h : List.Chain' R (L₁ ++ r :: L₂)) :
    List.Chain' R L₁ ∧ List.Chain' R L₂ ∧
      (∀ x ∈ L₁.getLast?, R x r) ∧ (∀ y ∈ L₂.head?, R r y) := by
  rw [List.chain'_append] at h
  obtain ⟨h1, h2, h3⟩ := h
  rw [List.chain'_cons'] at h2
  exact ⟨h1, h2.2, fun x hx => h3 x hx r (by simp [Option.mem_def]), h2.1⟩

/-- Rebuild a `Chain'` over a decomposition `L₁ ++ M ++ L₂` from chains of
the pieces and the two links. -/
theorem chain'_recomp {R : β → β → Prop} {L₁ M L₂ : List β}
    (h1 : List.Chain' R L₁) (hM : List.Chain' R M) (h2 : List.Chain' R L₂)
    (hlink1 : ∀ x ∈ L₁.getLast?, ∀ y ∈ M.head?, R x y)
    (hlink2 : ∀ x ∈ M.getLast?, ∀ y ∈ L₂.head?, R x y)
    (hM_ne : M ≠ []) :
    List.Chain' R (L₁ ++ M ++ L₂) := by
  rw [List.append_assoc, List.chain'_append]
  refine ⟨h1, ?_, ?_⟩
  · rw [List.chain'_append]
    exact ⟨hM, h2, hlink2⟩
  · intro x hx y hy
    apply hlink1 x hx y
    rw [List.head?_append] at hy
    cases hM' : M.head? with
    | none =>
      exact absurd (List.head?_eq_none_iff.mp hM') hM_ne
    | some m =>
      rw [hM'] at hy
      simpa using hy

theorem valueAtRuns_head_eq (x : InternalRun α) (T : List (InternalRun α))
    {j : Nat} (h : j ≤ x.end_) : valueAtRuns (x :: T) j = some x.value := by
  rw [valueAtRuns_cons, if_pos h]

theorem valueAtRuns_tail_eq (x : InternalRun α) (T : List (InternalRun α))
    {j : Nat} (h : x.end_ < j) : valueAtRuns (x :: T) j = valueAtRuns T j := by
  rw [valueAtRuns_cons, if_neg (by omega)]

theorem getElem?_append_offset (M X : List β) (k : Nat) :
    (M ++ X)[M.length + k]? = X[k]? := by
  rw [getElem?_append_ge M X (M.length + k) (by omega)]
  congr 1
  omega

theorem getElem?_append_self (M X : List β) : (M ++ X)[M.length]? = X[0]? := by
  simpa using getElem?_append_offset M X 0

theorem eraseIdx_append_offset (M X : List β) (k : Nat) :
    (M ++ X).eraseIdx (M.length + k) = M ++ X.eraseIdx k := by
  induction M with
  | nil => simp
  | cons a m ih => simp [List.eraseIdx, Nat.succ_add, ih]

theorem eraseIdx_append_self (M X : List β) :
    (M ++ X).eraseIdx M.length = M ++ X.eraseIdx 0 := by
  simpa using eraseIdx_append_offset M X 0

theorem set_append_offset (M X : List β) (k : Nat) (x : β) :
    (M ++ X).set (M.length + k) x = M ++ X.set k x := by
  induction M with
  | nil => simp
  | cons a m ih => simp [List.set, Nat.succ_add, ih]

theorem set_append_self (M X : List β) (x : β) :
    (M ++ X).set M.length x = M ++ X.set 0 x := by
  have h := set_append_offset M X 0 x
  rw [Nat.add_zero] at h
  exact h

theorem insertIdx_append_offset (M X : List β) (k : Nat) (x : β) :
    (M ++ X).insertIdx (M.length + k) x = M ++ X.insertIdx k x := by
  induction M with
  | nil => simp
  | cons a m ih => simpa [List.insertIdx, Nat.succ_add] using ih

theorem insertIdx_append_self (M X : List β) (x : β) :
    (M ++ X).insertIdx M.length x = M ++ X.insertIdx 0 x := by
  simpa using insertIdx_append_offset M X 0 x

theorem startAfter_of_getLast {L : List (InternalRun α)} {a : InternalRun α}
    (h : L.getLast? = some a) : startAfter L = a.end_ + 1 := by
  simp [startAfter, h]

set_option maxHeartbeats 1600000

theorem chain'_append_cons {R : β → β → Prop} {M : List β} {x : β} {X : List β}
    (hM : List.Chain' R M) (hx : List.Chain' R (x :: X))
    (hlink : ∀ a ∈ M.getLast?, R a x) :
    List.Chain' R (M ++ x :: X) := by
  rw [List.chain'_append]
  refine ⟨hM, hx, ?_⟩
  intro a ha y hy
  simp only [List.head?_cons, Option.mem_def, Option.some.injEq] at hy
  subst hy
  exact hlink a ha

theorem set_internal_spec [DecidableEq α] (L₁ : List (InternalRun α))
    (r : InternalRun α) (L₂ : List (InternalRun α)) (i : Nat) (v : α)
    (hs : EndsSorted (L₁ ++ r :: L₂)) (hv : ValuesDiffer (L₁ ++ r :: L₂))
    (hlt : ∀ x ∈ L₁, x.end_ < i) (hle : i ≤ r.end_) :
    ∃ runs' : List (InternalRun α),
      RleVec.set_internal ⟨L₁ ++ r :: L₂⟩ i v L₁.length (startAfter L₁) r.end_ =
        some ⟨runs'⟩ ∧
      EndsSorted runs' ∧ ValuesDiffer runs' ∧
      startAfter runs' = startAfter (L₁ ++ r :: L₂) ∧
      (∀ j, valueAtRuns runs' j =
        if j = i then some v else valueAtRuns (L₁ ++ r :: L₂) j) ∧
      runs'.length ≤ (L₁ ++ r :: L₂).length + 2 ∧
      (L₁ ++ r :: L₂).length ≤ runs'.length + 2 := by
  have hstart : startAfter L₁ ≤ i := startAfter_le_of_lt hlt
  obtain ⟨hsL₁, hsL₂, hsl1, hsl2⟩ := chain'_decomp hs
  obtain ⟨hvL₁, hvL₂, hvl1, hvl2⟩ := chain'_decomp hv
  have hpat : (L₁ ++ r :: L₂)[L₁.length]? = some r := getElem?_append_cons _ _ _
  by_cases hval : r.value = v
  · -- the run already stores the value: no-op
    refine ⟨L₁ ++ r :: L₂, ?_, hs, hv, rfl, ?_, by omega, by omega⟩
    · simp only [RleVec.set_internal, hpat, if_pos hval]
    · refine pointwise_step L₁ (r :: L₂) (r :: L₂) i v hlt ?_
      intro j hj
      by_cases hji : j = i
      · subst hji
        rw [if_pos rfl, valueAtRuns_cons, if_pos hle, hval]
      · rw [if_neg hji]
  · by_cases hsz : r.end_ - startAfter L₁ = 0
    · -- size-1 run: it covers exactly index i = r.end_ = startAfter L₁
      have hie : i = r.end_ := by omega
      have hista : i = startAfter L₁ := by omega
      rcases List.eq_nil_or_concat L₁ with rfl | ⟨M, q, rfl⟩
      · -- no previous run
        have hi0 : i = 0 := by
          simp only [startAfter_nil] at hista
          exact hista
        have hr0 : r.end_ = 0 := by omega
        cases L₂ with
        | nil =>
          refine ⟨[⟨r.end_, v⟩], ?_, ?_, ?_, ?_, ?_, (by simp only [List.length_append, List.length_cons, List.length_nil]; omega), (by simp only [List.length_append, List.length_cons, List.length_nil]; omega)⟩
          · simp [RleVec.set_internal, hval, hr0, List.set]
          · exact List.chain'_singleton _
          · exact List.chain'_singleton _
          · simp [startAfter]
          · intro j
            rw [List.nil_append]
            by_cases hj : j ≤ r.end_
            · rw [valueAtRuns_head_eq ⟨r.end_, v⟩ [] (show j ≤ r.end_ from hj),
                if_pos (by omega)]
            · rw [valueAtRuns_tail_eq ⟨r.end_, v⟩ [] (show r.end_ < j from by omega),
                valueAtRuns_tail_eq r [] (by omega), if_neg (by omega)]
        | cons s t =>
          have hrs : r.end_ < s.end_ := hsl2 s (by simp [Option.mem_def])
          by_cases hsv : s.value = v
          · refine ⟨s :: t, ?_, hsL₂, hvL₂,
              by simp [startAfter_cons_cons], ?_, (by simp only [List.length_append, List.length_cons, List.length_nil]; omega), (by simp only [List.length_append, List.length_cons, List.length_nil]; omega)⟩
            · simp [RleVec.set_internal, hval, hr0, hsv, List.eraseIdx]
            · intro j
              rw [List.nil_append]
              by_cases hj : j ≤ r.end_
              · rw [valueAtRuns_head_eq s t (by omega), hsv,
                  valueAtRuns_head_eq r _ hj, if_pos (by omega)]
              · rw [valueAtRuns_tail_eq r _ (by omega), if_neg (by omega)]
          · refine ⟨⟨r.end_, v⟩ :: s :: t, ?_, ?_, ?_,
              by simp [startAfter_cons_cons], ?_, (by simp only [List.length_append, List.length_cons, List.length_nil]; omega), (by simp only [List.length_append, List.length_cons, List.length_nil]; omega)⟩
            · simp [RleVec.set_internal, hval, hr0, hsv, List.set]
            · exact List.chain'_cons.mpr ⟨by simpa using hrs, hsL₂⟩
            · exact List.chain'_cons.mpr ⟨by simpa using fun h => hsv h.symm, hvL₂⟩
            · intro j
              rw [List.nil_append]
              by_cases hj : j ≤ r.end_
              · rw [valueAtRuns_head_eq ⟨r.end_, v⟩ (s :: t) (show j ≤ r.end_ from hj),
                  if_pos (by omega)]
              · rw [valueAtRuns_tail_eq ⟨r.end_, v⟩ (s :: t) (show r.end_ < j from by omega),
                  valueAtRuns_tail_eq r (s :: t) (by omega), if_neg (by omega)]
      · -- a previous run q exists
        simp only [List.concat_eq_append] at *
        have hst : startAfter (M ++ [q]) = q.end_ + 1 := by
          rw [startAfter, List.getLast?_concat]
        have hqr : q.end_ < r.end_ := hsl1 q (by simp [List.getLast?_concat, Option.mem_def])
        have hqv : q.value ≠ r.value := hvl1 q (by simp [List.getLast?_concat, Option.mem_def])
        obtain ⟨hsM, -, hsMq, -⟩ := @chain'_decomp _ _ _ _ ([] : List (InternalRun α)) hsL₁
        obtain ⟨hvM, -, hvMq, -⟩ := @chain'_decomp _ _ _ _ ([] : List (InternalRun α)) hvL₁
        have hiq : i = q.end_ + 1 := by rw [hista, hst]
        have hre : r.end_ = q.end_ + 1 := by omega
        have hltM : ∀ x ∈ M, x.end_ < i := fun x hx => hlt x (by simp [hx])
        have hrw : (M ++ [q]) ++ r :: L₂ = M ++ q :: r :: L₂ := by simp
        rw [hrw, hst]
        rw [show (M ++ [q]).length = M.length + 1 from by simp]
        by_cases hq : q.value = v
        · cases L₂ with
          | nil =>
            refine ⟨M ++ [⟨q.end_ + 1, v⟩], ?_, ?_, ?_, ?_, ?_, (by simp only [List.length_append, List.length_cons, List.length_nil]; omega), (by simp only [List.length_append, List.length_cons, List.length_nil]; omega)⟩
            · simp only [RleVec.set_internal, getElem?_append_offset, getElem?_append_self,
                eraseIdx_append_offset, eraseIdx_append_self, set_append_offset,
                set_append_self, insertIdx_append_offset, insertIdx_append_self,
                List.eraseIdx, List.set, List.getElem?_cons_zero, List.getElem?_cons_succ,
                List.length_append, List.length_cons, List.length_nil,
                Nat.succ_sub_one, Nat.zero_lt_succ, if_true, if_neg hval,
                show r.end_ - (q.end_ + 1) = 0 from by omega, reduceIte, hq, if_pos rfl]
              rw [if_neg (by omega)]
            · exact chain'_append_cons hsM (List.chain'_singleton _)
                (fun a ha => by have := hsMq a ha; simp; omega)
            · exact chain'_append_cons hvM (List.chain'_singleton _)
                (fun a ha => by have := hvMq a ha; rw [hq] at this; simpa using this)
            · rw [startAfter_append_cons, startAfter_append_cons]
              simp [startAfter, hre]
            · refine pointwise_step M _ _ i v hltM ?_
              intro j hj
              by_cases h1 : j ≤ q.end_
              · rw [valueAtRuns_head_eq ⟨q.end_ + 1, v⟩ [] (show j ≤ q.end_ + 1 from by omega),
                  if_neg (by omega), valueAtRuns_head_eq q _ h1, hq]
              · by_cases h2 : j = i
                · rw [valueAtRuns_head_eq ⟨q.end_ + 1, v⟩ [] (show j ≤ q.end_ + 1 from by omega),
                    if_pos h2]
                · rw [valueAtRuns_tail_eq ⟨q.end_ + 1, v⟩ [] (show q.end_ + 1 < j from by omega),
                    if_neg h2, valueAtRuns_tail_eq q _ (by omega),
                    valueAtRuns_tail_eq r _ (by omega)]
          | cons s t =>
            have hrs : r.end_ < s.end_ := hsl2 s (by simp [Option.mem_def])
            have hrsv : r.value ≠ s.value := hvl2 s (by simp [Option.mem_def])
            by_cases hsv : s.value = v
            · refine ⟨M ++ s :: t, ?_, ?_, ?_, ?_, ?_, (by simp only [List.length_append, List.length_cons, List.length_nil]; omega), (by simp only [List.length_append, List.length_cons, List.length_nil]; omega)⟩
              · simp only [RleVec.set_internal, getElem?_append_offset, getElem?_append_self,
                  eraseIdx_append_offset, eraseIdx_append_self, set_append_offset,
                  set_append_self, insertIdx_append_offset, insertIdx_append_self,
                  List.eraseIdx, List.set, List.getElem?_cons_zero, List.getElem?_cons_succ,
                  List.length_append, List.length_cons, List.length_nil,
                  Nat.succ_sub_one, Nat.zero_lt_succ, if_true, if_neg hval,
                  show r.end_ - (q.end_ + 1) = 0 from by omega, reduceIte, hq, if_pos rfl]
                rw [if_pos (by omega)]
                simp [hsv, List.eraseIdx, Nat.add_assoc, getElem?_append_offset, List.getElem?_cons_zero, List.getElem?_cons_succ, -List.getElem?_eq_getElem]
              · exact chain'_append_cons hsM hsL₂
                  (fun a ha => by have := hsMq a ha; omega)
              · exact chain'_append_cons hvM hvL₂
                  (fun a ha => by
                    have := hvMq a ha
                    rw [hq, ← hsv] at this
                    exact this)
              · rw [startAfter_append_cons, startAfter_append_cons,
                  startAfter_cons_cons, startAfter_cons_cons]
              · refine pointwise_step M _ _ i v hltM ?_
                intro j hj
                by_cases h1 : j ≤ s.end_
                · rw [valueAtRuns_head_eq s t h1, hsv]
                  by_cases h2 : j = i
                  · rw [if_pos h2]
                  · rw [if_neg h2]
                    by_cases h3 : j ≤ q.end_
                    · rw [valueAtRuns_head_eq q _ h3, hq]
                    · rw [valueAtRuns_tail_eq q _ (by omega),
                        valueAtRuns_tail_eq r _ (by omega),
                        valueAtRuns_head_eq s t h1, hsv]
                · rw [valueAtRuns_tail_eq s t (by omega), if_neg (by omega),
                    valueAtRuns_tail_eq q _ (by omega),
                    valueAtRuns_tail_eq r _ (by omega),
                    valueAtRuns_tail_eq s t (by omega)]
            · refine ⟨M ++ ⟨q.end_ + 1, v⟩ :: s :: t, ?_, ?_, ?_, ?_, ?_,
                (by simp only [List.length_append, List.length_cons, List.length_nil]; omega),
                (by simp only [List.length_append, List.length_cons, List.length_nil]; omega)⟩
              · simp only [RleVec.set_internal, getElem?_append_offset, getElem?_append_self,
                  eraseIdx_append_offset, eraseIdx_append_self, set_append_offset,
                  set_append_self, insertIdx_append_offset, insertIdx_append_self,
                  List.eraseIdx, List.set, List.getElem?_cons_zero, List.getElem?_cons_succ,
                  List.length_append, List.length_cons, List.length_nil,
                  Nat.succ_sub_one, Nat.zero_lt_succ, if_true, if_neg hval,
                  show r.end_ - (q.end_ + 1) = 0 from by omega, reduceIte, hq, if_pos rfl]
                rw [if_pos (by omega)]
                simp [hsv, List.set, Nat.add_assoc, getElem?_append_offset, set_append_offset, List.getElem?_cons_zero, List.getElem?_cons_succ, -List.getElem?_eq_getElem]
              · refine chain'_append_cons hsM ?_
                  (fun a ha => by have := hsMq a ha; simp; omega)
                refine List.chain'_cons.mpr ⟨?_, hsL₂⟩
                simp
                omega
              · refine chain'_append_cons hvM ?_
                  (fun a ha => by have := hvMq a ha; rw [hq] at this; simpa using this)
                exact List.chain'_cons.mpr ⟨by simpa using fun h => hsv h.symm,
                  hvL₂⟩
              · rw [startAfter_append_cons, startAfter_append_cons,
                  startAfter_cons_cons, startAfter_cons_cons, startAfter_cons_cons]
              · refine pointwise_step M _ _ i v hltM ?_
                intro j hj
                by_cases h1 : j ≤ q.end_ + 1
                · rw [valueAtRuns_head_eq ⟨q.end_ + 1, v⟩ (s :: t)
                      (show j ≤ q.end_ + 1 from h1)]
                  by_cases h2 : j = i
                  · rw [if_pos h2]
                  · rw [if_neg h2]
                    by_cases h3 : j ≤ q.end_
                    · rw [valueAtRuns_head_eq q _ h3, hq]
                    · omega
                · rw [valueAtRuns_tail_eq ⟨q.end_ + 1, v⟩ (s :: t)
                      (show q.end_ + 1 < j from by omega),
                    if_neg (by omega), valueAtRuns_tail_eq q _ (by omega),
                    valueAtRuns_tail_eq r _ (by omega)]
        · -- previous run does not match
          cases L₂ with
          | nil =>
            refine ⟨M ++ q :: [⟨r.end_, v⟩], ?_, ?_, ?_, ?_, ?_, (by simp only [List.length_append, List.length_cons, List.length_nil]; omega), (by simp only [List.length_append, List.length_cons, List.length_nil]; omega)⟩
            · simp only [RleVec.set_internal, getElem?_append_offset, getElem?_append_self,
                eraseIdx_append_offset, eraseIdx_append_self, set_append_offset,
                set_append_self, insertIdx_append_offset, insertIdx_append_self,
                List.eraseIdx, List.set, List.getElem?_cons_zero, List.getElem?_cons_succ,
                List.length_append, List.length_cons, List.length_nil,
                Nat.succ_sub_one, Nat.zero_lt_succ, if_true, if_neg hval,
                show r.end_ - (q.end_ + 1) = 0 from by omega, reduceIte, if_neg hq]
              simp
            · refine chain'_append_cons hsM ?_ hsMq
              exact List.chain'_cons.mpr ⟨by simpa using hqr, List.chain'_singleton _⟩
            · refine chain'_append_cons hvM ?_ hvMq
              exact List.chain'_cons.mpr ⟨by simpa using fun h => hq h,
                List.chain'_singleton _⟩
            · rw [startAfter_append_cons, startAfter_append_cons,
                startAfter_cons_cons, startAfter_cons_cons]
              simp [startAfter]
            · refine pointwise_step M _ _ i v hltM ?_
              intro j hj
              by_cases h1 : j ≤ q.end_
              · rw [valueAtRuns_head_eq q _ h1, valueAtRuns_head_eq q _ h1,
                  if_neg (by omega)]
              · rw [valueAtRuns_tail_eq q _ (by omega), valueAtRuns_tail_eq q _ (by omega)]
                by_cases h2 : j ≤ r.end_
                · rw [valueAtRuns_head_eq ⟨r.end_, v⟩ [] (show j ≤ r.end_ from h2),
                    if_pos (by omega)]
                · rw [valueAtRuns_tail_eq ⟨r.end_, v⟩ [] (show r.end_ < j from by omega),
                    valueAtRuns_tail_eq r [] (by omega), if_neg (by omega)]
          | cons s t =>
            have hrs : r.end_ < s.end_ := hsl2 s (by simp [Option.mem_def])
            have hrsv : r.value ≠ s.value := hvl2 s (by simp [Option.mem_def])
            by_cases hsv : s.value = v
            · refine ⟨M ++ q :: s :: t, ?_, ?_, ?_, ?_, ?_, (by simp only [List.length_append, List.length_cons, List.length_nil]; omega), (by simp only [List.length_append, List.length_cons, List.length_nil]; omega)⟩
              · simp only [RleVec.set_internal, getElem?_append_offset, getElem?_append_self,
                  eraseIdx_append_offset, eraseIdx_append_self, set_append_offset,
                  set_append_self, insertIdx_append_offset, insertIdx_append_self,
                  List.eraseIdx, List.set, List.getElem?_cons_zero, List.getElem?_cons_succ,
                  List.length_append, List.length_cons, List.length_nil,
                  Nat.succ_sub_one, Nat.zero_lt_succ, if_true, if_neg hval,
                  show r.end_ - (q.end_ + 1) = 0 from by omega, reduceIte, if_neg hq]
                rw [if_pos (by omega)]
                simp [hsv, List.eraseIdx, Nat.add_assoc, getElem?_append_offset, List.getElem?_cons_zero, List.getElem?_cons_succ, -List.getElem?_eq_getElem]
              · refine chain'_append_cons hsM ?_ hsMq
                exact List.chain'_cons.mpr ⟨show q.end_ < s.end_ from by omega, hsL₂⟩
              · refine chain'_append_cons hvM ?_ hvMq
                exact List.chain'_cons.mpr
                  ⟨show q.value ≠ s.value from by rw [hsv]; exact hq, hvL₂⟩
              · rw [startAfter_append_cons, startAfter_append_cons,
                  startAfter_cons_cons, startAfter_cons_cons, startAfter_cons_cons]
              · refine pointwise_step M _ _ i v hltM ?_
                intro j hj
                by_cases h1 : j ≤ q.end_
                · rw [valueAtRuns_head_eq q _ h1, valueAtRuns_head_eq q _ h1,
                    if_neg (by omega)]
                · rw [valueAtRuns_tail_eq q _ (by omega), valueAtRuns_tail_eq q _ (by omega)]
                  by_cases h2 : j ≤ r.end_
                  · rw [valueAtRuns_head_eq s t (by omega), hsv,
                      valueAtRuns_head_eq r _ h2, if_pos (by omega)]
                  · rw [valueAtRuns_tail_eq r _ (by omega), if_neg (by omega)]
            · refine ⟨M ++ q :: ⟨r.end_, v⟩ :: s :: t, ?_, ?_, ?_, ?_, ?_,
                (by simp only [List.length_append, List.length_cons, List.length_nil]; omega),
                (by simp only [List.length_append, List.length_cons, List.length_nil]; omega)⟩
              · simp only [RleVec.set_internal, getElem?_append_offset, getElem?_append_self,
                  eraseIdx_append_offset, eraseIdx_append_self, set_append_offset,
                  set_append_self, insertIdx_append_offset, insertIdx_append_self,
                  List.eraseIdx, List.set, List.getElem?_cons_zero, List.getElem?_cons_succ,
                  List.length_append, List.length_cons, List.length_nil,
                  Nat.succ_sub_one, Nat.zero_lt_succ, if_true, if_neg hval,
                  show r.end_ - (q.end_ + 1) = 0 from by omega, reduceIte, if_neg hq]
                rw [if_pos (by omega)]
                simp [hsv, List.set, Nat.add_assoc, getElem?_append_offset, set_append_offset, List.getElem?_cons_zero, List.getElem?_cons_succ, -List.getElem?_eq_getElem]
              · refine chain'_append_cons hsM ?_ hsMq
                refine List.chain'_cons.mpr ⟨by simpa using hqr, ?_⟩
                refine List.chain'_cons.mpr ⟨by simpa using hrs, hsL₂⟩
              · refine chain'_append_cons hvM ?_ hvMq
                refine List.chain'_cons.mpr ⟨by simpa using fun h => hq h, ?_⟩
                exact List.chain'_cons.mpr ⟨by simpa using fun h => hsv h.symm,
                  hvL₂⟩
              · rw [startAfter_append_cons, startAfter_append_cons,
                  startAfter_cons_cons, startAfter_cons_cons, startAfter_cons_cons,
                  startAfter_cons_cons]
              · refine pointwise_step M _ _ i v hltM ?_
                intro j hj
                by_cases h1 : j ≤ q.end_
                · rw [valueAtRuns_head_eq q _ h1, valueAtRuns_head_eq q _ h1,
                    if_neg (by omega)]
                · rw [valueAtRuns_tail_eq q _ (by omega), valueAtRuns_tail_eq q _ (by omega)]
                  by_cases h2 : j ≤ r.end_
                  · rw [valueAtRuns_head_eq ⟨r.end_, v⟩ (s :: t) (show j ≤ r.end_ from h2),
                      if_pos (by omega)]
                  · rw [valueAtRuns_tail_eq ⟨r.end_, v⟩ (s :: t) (show r.end_ < j from by omega),
                      valueAtRuns_tail_eq r _ (by omega), if_neg (by omega)]
    · -- the run is longer than one element
      have hlt' : startAfter L₁ < r.end_ := by omega
      have hsRL : List.Chain' (fun a b => a.end_ < b.end_) (r :: L₂) :=
        List.chain'_cons'.mpr ⟨hsl2, hsL₂⟩
      have hvRL : List.Chain' (fun a b => a.value ≠ b.value) (r :: L₂) :=
        List.chain'_cons'.mpr ⟨hvl2, hvL₂⟩
      by_cases hista : i = startAfter L₁
      · -- write at the first index of the run
        rcases List.eq_nil_or_concat L₁ with rfl | ⟨M, q, rfl⟩
        · have hi0 : i = 0 := by simpa [startAfter_nil] using hista
          refine ⟨⟨0, v⟩ :: r :: L₂, ?_, ?_, ?_, ?_, ?_,
            (by simp only [List.length_append, List.length_cons, List.length_nil]; omega),
            (by simp only [List.length_append, List.length_cons, List.length_nil]; omega)⟩
          · simp [RleVec.set_internal, hval, hi0,
              show ¬ r.end_ = 0 from by simp [startAfter_nil] at hlt'; omega,
              List.insertIdx_zero, List.insertIdx_succ_cons]
          · exact List.chain'_cons.mpr
              ⟨show (0 : Nat) < r.end_ from by simpa [startAfter_nil] using hlt', hsRL⟩
          · exact List.chain'_cons.mpr
              ⟨show v ≠ r.value from fun h => hval h.symm, hvRL⟩
          · rw [List.nil_append, startAfter_cons_cons]
          · intro j
            rw [List.nil_append]
            by_cases hj : j = 0
            · subst hj
              rw [valueAtRuns_head_eq ⟨0, v⟩ (r :: L₂) (show (0 : Nat) ≤ 0 from le_refl 0),
                if_pos (by omega)]
            · rw [valueAtRuns_tail_eq ⟨0, v⟩ (r :: L₂) (show (0 : Nat) < j from by omega),
                if_neg (by omega)]
        · simp only [List.concat_eq_append] at *
          have hst : startAfter (M ++ [q]) = q.end_ + 1 := by
            rw [startAfter, List.getLast?_concat]
          have hqr : q.end_ < r.end_ := hsl1 q (by simp [List.getLast?_concat, Option.mem_def])
          have hqv : q.value ≠ r.value := hvl1 q (by simp [List.getLast?_concat, Option.mem_def])
          obtain ⟨hsM, -, hsMq, -⟩ := @chain'_decomp _ _ _ _ ([] : List (InternalRun α)) hsL₁
          obtain ⟨hvM, -, hvMq, -⟩ := @chain'_decomp _ _ _ _ ([] : List (InternalRun α)) hvL₁
          have hiq : i = q.end_ + 1 := by rw [hista, hst]
          have hqr1 : q.end_ + 1 < r.end_ := by rw [← hst]; exact hlt'
          have hltM : ∀ x ∈ M, x.end_ < i := fun x hx => hlt x (by simp [hx])
          have hrw : (M ++ [q]) ++ r :: L₂ = M ++ q :: r :: L₂ := by simp
          rw [hrw, hst]
          rw [show (M ++ [q]).length = M.length + 1 from by simp]
          by_cases hq : q.value = v
          · refine ⟨M ++ ⟨q.end_ + 1, v⟩ :: r :: L₂, ?_, ?_, ?_, ?_, ?_,
              (by simp only [List.length_append, List.length_cons, List.length_nil]; omega),
              (by simp only [List.length_append, List.length_cons, List.length_nil]; omega)⟩
            · simp only [RleVec.set_internal, getElem?_append_offset, getElem?_append_self,
                set_append_offset, set_append_self, List.set,
                List.getElem?_cons_zero, List.getElem?_cons_succ,
                Nat.succ_sub_one, Nat.zero_lt_succ, if_true, if_neg hval,
                show ¬ (r.end_ - (q.end_ + 1) = 0) from by omega, reduceIte,
                if_pos hiq, hq]
            · refine chain'_append_cons hsM ?_
                (fun a ha => by have := hsMq a ha; simp; omega)
              exact List.chain'_cons.mpr ⟨by simpa using hqr1, hsRL⟩
            · refine chain'_append_cons hvM ?_
                (fun a ha => by have := hvMq a ha; rw [hq] at this; simpa using this)
              exact List.chain'_cons.mpr ⟨by simpa using fun h => hval h.symm, hvRL⟩
            · rw [startAfter_append_cons, startAfter_append_cons,
                startAfter_cons_cons, startAfter_cons_cons]
            · refine pointwise_step M _ _ i v hltM ?_
              intro j hj
              by_cases h1 : j ≤ q.end_
              · rw [valueAtRuns_head_eq ⟨q.end_ + 1, v⟩ (r :: L₂)
                    (show j ≤ q.end_ + 1 from by omega),
                  if_neg (by omega), valueAtRuns_head_eq q _ h1, hq]
              · by_cases h2 : j = i
                · rw [valueAtRuns_head_eq ⟨q.end_ + 1, v⟩ (r :: L₂)
                      (show j ≤ q.end_ + 1 from by omega), if_pos h2]
                · rw [valueAtRuns_tail_eq ⟨q.end_ + 1, v⟩ (r :: L₂)
                      (show q.end_ + 1 < j from by omega),
                    if_neg h2, valueAtRuns_tail_eq q _ (by omega)]
          · refine ⟨M ++ q :: ⟨q.end_ + 1, v⟩ :: r :: L₂, ?_, ?_, ?_, ?_, ?_,
              (by simp only [List.length_append, List.length_cons, List.length_nil]; omega),
              (by simp only [List.length_append, List.length_cons, List.length_nil]; omega)⟩
            · simp only [RleVec.set_internal, getElem?_append_offset, getElem?_append_self,
                insertIdx_append_offset, insertIdx_append_self, List.insertIdx_zero, List.insertIdx_succ_cons,
                List.getElem?_cons_zero, List.getElem?_cons_succ,
                Nat.succ_sub_one, Nat.zero_lt_succ, if_true, if_neg hval,
                show ¬ (r.end_ - (q.end_ + 1) = 0) from by omega, reduceIte,
                if_pos hiq, if_neg hq]
            · refine chain'_append_cons hsM ?_ hsMq
              refine List.chain'_cons.mpr ⟨show q.end_ < q.end_ + 1 from Nat.lt_succ_self q.end_, ?_⟩
              exact List.chain'_cons.mpr ⟨by simpa using hqr1, hsRL⟩
            · refine chain'_append_cons hvM ?_ hvMq
              refine List.chain'_cons.mpr ⟨by simpa using fun h => hq h, ?_⟩
              exact List.chain'_cons.mpr ⟨by simpa using fun h => hval h.symm, hvRL⟩
            · rw [startAfter_append_cons, startAfter_append_cons,
                startAfter_cons_cons, startAfter_cons_cons, startAfter_cons_cons]
            · refine pointwise_step M _ _ i v hltM ?_
              intro j hj
              by_cases h1 : j ≤ q.end_
              · rw [valueAtRuns_head_eq q _ h1, valueAtRuns_head_eq q _ h1,
                  if_neg (by omega)]
              · rw [valueAtRuns_tail_eq q _ (by omega), valueAtRuns_tail_eq q _ (by omega)]
                by_cases h2 : j = i
                · rw [valueAtRuns_head_eq ⟨q.end_ + 1, v⟩ (r :: L₂)
                      (show j ≤ q.end_ + 1 from by omega), if_pos h2]
                · rw [valueAtRuns_tail_eq ⟨q.end_ + 1, v⟩ (r :: L₂)
                      (show q.end_ + 1 < j from by omega), if_neg h2]
      · by_cases hiend : i = r.end_
        · -- write at the last index of the run
          have hstlt : startAfter L₁ < i := by omega
          cases L₂ with
          | nil =>
            refine ⟨L₁ ++ ⟨r.end_ - 1, r.value⟩ :: [⟨r.end_, v⟩], ?_, ?_, ?_, ?_, ?_,
              (by simp only [List.length_append, List.length_cons, List.length_nil]; omega),
              (by simp only [List.length_append, List.length_cons, List.length_nil]; omega)⟩
            · simp only [RleVec.set_internal, hpat, if_neg hval,
                show ¬ (r.end_ - startAfter L₁ = 0) from by omega, reduceIte,
                if_neg hista, if_pos hiend, getElem?_append_offset,
                List.getElem?_cons_succ, List.getElem?_cons_zero, List.getElem?_nil,
                set_append_self, List.set, insertIdx_append_offset, List.insertIdx_zero, List.insertIdx_succ_cons]
            · refine chain'_append_cons ?_ ?_ ?_
              · exact hsL₁
              · exact List.chain'_cons.mpr ⟨by simp; omega, List.chain'_singleton _⟩
              · intro a ha
                have := startAfter_of_getLast ha
                simp only
                omega
            · refine chain'_append_cons hvL₁ ?_
                (fun a ha => by have := hvl1 a ha; simpa using this)
              exact List.chain'_cons.mpr ⟨by simpa using fun h => hval h,
                List.chain'_singleton _⟩
            · rw [startAfter_append_cons, startAfter_append_cons,
                startAfter_cons_cons]
              simp [startAfter]
            · refine pointwise_step L₁ _ _ i v hlt ?_
              intro j hj
              by_cases h1 : j ≤ r.end_ - 1
              · rw [valueAtRuns_head_eq ⟨r.end_ - 1, r.value⟩ _
                    (show j ≤ r.end_ - 1 from h1),
                  valueAtRuns_head_eq r _ (by omega), if_neg (by omega)]
              · by_cases h2 : j = i
                · rw [valueAtRuns_tail_eq ⟨r.end_ - 1, r.value⟩ _
                      (show r.end_ - 1 < j from by omega),
                    valueAtRuns_head_eq ⟨r.end_, v⟩ [] (show j ≤ r.end_ from by omega),
                    if_pos h2]
                · rw [valueAtRuns_tail_eq ⟨r.end_ - 1, r.value⟩ _
                      (show r.end_ - 1 < j from by omega),
                    valueAtRuns_tail_eq ⟨r.end_, v⟩ [] (show r.end_ < j from by omega),
                    valueAtRuns_tail_eq r [] (by omega), if_neg h2]
          | cons s t =>
            have hrs : r.end_ < s.end_ := hsl2 s (by simp [Option.mem_def])
            have hrsv : r.value ≠ s.value := hvl2 s (by simp [Option.mem_def])
            by_cases hsv : s.value = v
            · refine ⟨L₁ ++ ⟨r.end_ - 1, r.value⟩ :: s :: t, ?_, ?_, ?_, ?_, ?_,
                (by simp only [List.length_append, List.length_cons, List.length_nil]; omega),
                (by simp only [List.length_append, List.length_cons, List.length_nil]; omega)⟩
              · simp only [RleVec.set_internal, hpat, if_neg hval,
                  show ¬ (r.end_ - startAfter L₁ = 0) from by omega, reduceIte,
                  if_neg hista, if_pos hiend, getElem?_append_offset,
                  List.getElem?_cons_succ, List.getElem?_cons_zero, List.getElem?_nil,
                  set_append_self, List.set]
                rw [if_pos ⟨by simp only [List.length_append, List.length_cons]; omega, hsv⟩]
              · refine chain'_append_cons hsL₁ ?_ ?_
                · refine List.chain'_cons.mpr ⟨by simp; omega, hsL₂⟩
                · intro a ha
                  have := startAfter_of_getLast ha
                  simp only
                  omega
              · refine chain'_append_cons hvL₁ ?_
                  (fun a ha => by have := hvl1 a ha; simpa using this)
                exact List.chain'_cons.mpr ⟨by simpa using hrsv, hvL₂⟩
              · rw [startAfter_append_cons, startAfter_append_cons,
                  startAfter_cons_cons, startAfter_cons_cons]
              · refine pointwise_step L₁ _ _ i v hlt ?_
                intro j hj
                by_cases h1 : j ≤ r.end_ - 1
                · rw [valueAtRuns_head_eq ⟨r.end_ - 1, r.value⟩ _
                      (show j ≤ r.end_ - 1 from h1),
                    valueAtRuns_head_eq r _ (by omega), if_neg (by omega)]
                · by_cases h2 : j = i
                  · rw [valueAtRuns_tail_eq ⟨r.end_ - 1, r.value⟩ _
                        (show r.end_ - 1 < j from by omega),
                      valueAtRuns_head_eq s t (by omega), hsv, if_pos h2]
                  · rw [valueAtRuns_tail_eq ⟨r.end_ - 1, r.value⟩ _
                        (show r.end_ - 1 < j from by omega),
                      valueAtRuns_tail_eq r _ (by omega), if_neg h2]
            · refine ⟨L₁ ++ ⟨r.end_ - 1, r.value⟩ :: ⟨r.end_, v⟩ :: s :: t, ?_, ?_, ?_, ?_, ?_,
                (by simp only [List.length_append, List.length_cons, List.length_nil]; omega),
                (by simp only [List.length_append, List.length_cons, List.length_nil]; omega)⟩
              · simp only [RleVec.set_internal, hpat, if_neg hval,
                  show ¬ (r.end_ - startAfter L₁ = 0) from by omega, reduceIte,
                  if_neg hista, if_pos hiend, getElem?_append_offset,
                  List.getElem?_cons_succ, List.getElem?_cons_zero, List.getElem?_nil,
                  set_append_self, List.set, insertIdx_append_offset, List.insertIdx_zero, List.insertIdx_succ_cons]
                rw [if_neg (fun hc => hsv hc.2)]
              · refine chain'_append_cons hsL₁ ?_ ?_
                · refine List.chain'_cons.mpr ⟨by simp; omega, ?_⟩
                  exact List.chain'_cons.mpr ⟨by simpa using hrs, hsL₂⟩
                · intro a ha
                  have := startAfter_of_getLast ha
                  simp only
                  omega
              · refine chain'_append_cons hvL₁ ?_
                  (fun a ha => by have := hvl1 a ha; simpa using this)
                refine List.chain'_cons.mpr ⟨by simpa using fun h => hval h, ?_⟩
                exact List.chain'_cons.mpr ⟨by simpa using fun h => hsv h.symm, hvL₂⟩
              · rw [startAfter_append_cons, startAfter_append_cons,
                  startAfter_cons_cons, startAfter_cons_cons, startAfter_cons_cons]
              · refine pointwise_step L₁ _ _ i v hlt ?_
                intro j hj
                by_cases h1 : j ≤ r.end_ - 1
                · rw [valueAtRuns_head_eq ⟨r.end_ - 1, r.value⟩ _
                      (show j ≤ r.end_ - 1 from h1),
                    valueAtRuns_head_eq r _ (by omega), if_neg (by omega)]
                · by_cases h2 : j = i
                  · rw [valueAtRuns_tail_eq ⟨r.end_ - 1, r.value⟩ _
                        (show r.end_ - 1 < j from by omega),
                      valueAtRuns_head_eq ⟨r.end_, v⟩ (s :: t)
                        (show j ≤ r.end_ from by omega), if_pos h2]
                  · rw [valueAtRuns_tail_eq ⟨r.end_ - 1, r.value⟩ _
                        (show r.end_ - 1 < j from by omega),
                      valueAtRuns_tail_eq ⟨r.end_, v⟩ (s :: t)
                        (show r.end_ < j from by omega),
                      valueAtRuns_tail_eq r _ (by omega), if_neg h2]
        · -- interior write: split the run in three
          have h1i : startAfter L₁ < i := by omega
          have h2i : i < r.end_ := by omega
          refine ⟨L₁ ++ ⟨i - 1, r.value⟩ :: ⟨i, v⟩ :: ⟨r.end_, r.value⟩ :: L₂,
            ?_, ?_, ?_, ?_, ?_,
            (by simp only [List.length_append, List.length_cons, List.length_nil]; omega),
            (by simp only [List.length_append, List.length_cons, List.length_nil]; omega)⟩
          · simp only [RleVec.set_internal, hpat, if_neg hval,
              show ¬ (r.end_ - startAfter L₁ = 0) from by omega, reduceIte,
              if_neg hista, if_neg hiend, set_append_self, List.set,
              insertIdx_append_offset, List.insertIdx_zero, List.insertIdx_succ_cons]
          · refine chain'_append_cons hsL₁ ?_ ?_
            · refine List.chain'_cons.mpr ⟨by simp; omega, ?_⟩
              refine List.chain'_cons.mpr ⟨by simp; omega, ?_⟩
              exact List.chain'_cons'.mpr ⟨fun b hb => by
                have := hsl2 b hb; simpa using this, hsL₂⟩
            · intro a ha
              have := startAfter_of_getLast ha
              simp only
              omega
          · refine chain'_append_cons hvL₁ ?_
              (fun a ha => by have := hvl1 a ha; simpa using this)
            refine List.chain'_cons.mpr ⟨by simpa using fun h => hval h, ?_⟩
            refine List.chain'_cons.mpr ⟨by simpa using fun h => hval h.symm, ?_⟩
            exact List.chain'_cons'.mpr ⟨fun b hb => by
              have := hvl2 b hb; simpa using this, hvL₂⟩
          · rw [startAfter_append_cons, startAfter_append_cons,
              startAfter_cons_cons, startAfter_cons_cons]
          · refine pointwise_step L₁ _ _ i v hlt ?_
            intro j hj
            by_cases hc1 : j ≤ i - 1
            · rw [valueAtRuns_head_eq ⟨i - 1, r.value⟩ _ (show j ≤ i - 1 from hc1),
                valueAtRuns_head_eq r _ (by omega), if_neg (by omega)]
            · by_cases hc2 : j = i
              · rw [valueAtRuns_tail_eq ⟨i - 1, r.value⟩ _
                    (show i - 1 < j from by omega),
                  valueAtRuns_head_eq ⟨i, v⟩ _ (show j ≤ i from by omega),
                  if_pos hc2]
              · by_cases hc3 : j ≤ r.end_
                · rw [valueAtRuns_tail_eq ⟨i - 1, r.value⟩ _
                      (show i - 1 < j from by omega),
                    valueAtRuns_tail_eq ⟨i, v⟩ _ (show i < j from by omega),
                    valueAtRuns_head_eq ⟨r.end_, r.value⟩ _
                      (show j ≤ r.end_ from hc3), if_neg hc2]
                · rw [valueAtRuns_tail_eq ⟨i - 1, r.value⟩ _
                      (show i - 1 < j from by omega),
                    valueAtRuns_tail_eq ⟨i, v⟩ _ (show i < j from by omega),
                    valueAtRuns_tail_eq ⟨r.end_, r.value⟩ _
                      (show r.end_ < j from by omega), if_neg hc2]

/-- `RleVec::set` on a well-formed table: always succeeds in bounds,
preserves the invariant and the length, writes exactly index `i`, and moves
the run count by at most two. -/
theorem set_spec [DecidableEq α] (rle : RleVec α) (h : rle.Inv) {i : Nat} (v : α)
    (hi : i < rle.len) :
    ∃ rle' : RleVec α, rle.set i v = some rle' ∧ rle'.Inv ∧ rle'.len = rle.len ∧
      (∀ j, rle'.valueAt j = if j = i then some v else rle.valueAt j) ∧
      rle'.runs_len ≤ rle.runs_len + 2 ∧ rle.runs_len ≤ rle'.runs_len + 2 := by
  obtain ⟨L₁, r, L₂, hruns, hinfo, hlt, hle, hsa⟩ := index_info_decomp rle h.1 hi
  rcases rle with ⟨runs0⟩
  simp only at hruns
  subst hruns
  have hs : EndsSorted (L₁ ++ r :: L₂) := h.1
  have hv : ValuesDiffer (L₁ ++ r :: L₂) := h.2
  obtain ⟨runs', heq, hs', hv', hsa', hptw, hl1, hl2⟩ :=
    set_internal_spec L₁ r L₂ i v hs hv hlt hle
  refine ⟨⟨runs'⟩, ?_, ⟨hs', hv'⟩, ?_, hptw, ?_, ?_⟩
  · unfold RleVec.set
    rw [hinfo]
    exact heq
  · rw [len_eq_startAfter, len_eq_startAfter]
    exact hsa'
  · exact hl1
  · exact hl2

/-- The `set` loop on a well-formed table: succeeds, preserves invariant and
length, and overwrites exactly `[s, s + l)`. -/
theorem setLoop_spec [DecidableEq α] :
    ∀ (l : Nat) (rle : RleVec α), rle.Inv → ∀ (s : Nat) (v : α), s + l ≤ rle.len →
    ∃ rle', setLoop rle s l v = some rle' ∧ rle'.Inv ∧ rle'.len = rle.len ∧
      (∀ j, rle'.valueAt j =
        if s ≤ j ∧ j < s + l then some v else rle.valueAt j) := by
  intro l
  induction l with
  | zero =>
    intro rle h s v hb
    exact ⟨rle, rfl, h, rfl, fun j => by rw [if_neg (by omega)]⟩
  | succ l ih =>
    intro rle h s v hb
    obtain ⟨rle₁, heq1, h1, hlen1, hptw1, -, -⟩ :=
      @set_spec _ _ rle h s v (by omega)
    obtain ⟨rle', heq2, h2, hlen2, hptw2⟩ :=
      ih rle₁ h1 (s + 1) v (by omega)
    refine ⟨rle', ?_, h2, by omega, ?_⟩
    · rw [show setLoop rle s (l + 1) v = (rle.set s v).bind
          (fun r => setLoop r (s + 1) l v) from rfl, heq1]
      exact heq2
    · intro j
      rw [hptw2 j, hptw1 j]
      by_cases hj1 : s + 1 ≤ j ∧ j < s + 1 + l
      · rw [if_pos hj1, if_pos (by omega)]
      · rw [if_neg hj1]
        by_cases hj2 : j = s
        · rw [if_pos hj2, if_pos (by omega)]
        · rw [if_neg hj2, if_neg (by omega)]

theorem ends_lt_startAfter {A : List (InternalRun α)} (hs : EndsSorted A) :
    ∀ x ∈ A, x.end_ < startAfter A := by
  induction A with
  | nil => simp
  | cons r rs ih =>
    intro x hx
    cases rs with
    | nil =>
      simp only [List.mem_singleton] at hx
      subst hx
      simp [startAfter]
    | cons s t =>
      rw [startAfter_cons_cons]
      have hrs : r.end_ < s.end_ := (List.chain'_cons.mp hs).1
      have hs' := (List.chain'_cons.mp hs).2
      rcases List.mem_cons.mp hx with rfl | hx'
      · have := ih hs' s (by simp)
        omega
      · exact ih hs' x hx'

theorem startAfter_take {runs : List (InternalRun α)} {k : Nat}
    {x : InternalRun α} (hk : 0 < k) (hx : runs[k - 1]? = some x) :
    startAfter (runs.take k) = x.end_ + 1 := by
  obtain ⟨m, rfl⟩ : ∃ m, k = m + 1 := ⟨k - 1, by omega⟩
  simp only [Nat.add_sub_cancel] at hx
  have htake : runs.take (m + 1) = runs.take m ++ [x] := by
    rw [List.take_succ, hx]
    rfl
  rw [htake, startAfter, List.getLast?_concat]

theorem take_append_offset (A X : List β) (k : Nat) :
    (A ++ X).take (A.length + k) = A ++ X.take k := by
  induction A with
  | nil => simp
  | cons a t ih => simp [List.take, Nat.succ_add, ih]

/-- Reduce an overwrite-window goal over `P ++ A` vs `P ++ B` to positions
at or beyond the prefix `P` (whose records all end before the window). -/
theorem pointwise_range_step (P A B : List (InternalRun α)) (lo hi : Nat) (v : α)
    (hP : ∀ x ∈ P, x.end_ < lo)
    (h : ∀ j, startAfter P ≤ j →
      valueAtRuns A j = if lo ≤ j ∧ j ≤ hi then some v else valueAtRuns B j) :
    ∀ j, valueAtRuns (P ++ A) j =
      if lo ≤ j ∧ j ≤ hi then some v else valueAtRuns (P ++ B) j := by
  intro j
  rw [valueAtRuns_append, valueAtRuns_append]
  cases hPj : valueAtRuns P j with
  | some w =>
    have := valueAtRuns_some_lt hPj hP
    rw [if_neg (by omega)]
  | none => exact h j (valueAtRuns_none_ge hPj)

theorem drop_append_offset (M X : List β) (k : Nat) :
    (M ++ X).drop (M.length + k) = X.drop k := by
  induction M with
  | nil => simp
  | cons a m ih => simp [Nat.succ_add, ih]

theorem startAfter_cons_eq_end (x y : InternalRun α) (B : List (InternalRun α))
    (h : x.end_ = y.end_) : startAfter (x :: B) = startAfter (y :: B) := by
  cases B with
  | nil => simp [startAfter, h]
  | cons b t => rw [startAfter_cons_cons, startAfter_cons_cons]

theorem valueAtRuns_window {A : List (InternalRun α)} {r : InternalRun α}
    (B : List (InternalRun α)) (hsA : EndsSorted A) {j : Nat}
    (h1 : startAfter A ≤ j) (h2 : j ≤ r.end_) :
    valueAtRuns (A ++ r :: B) j = some r.value := by
  rw [valueAtRuns_append_of_lt A (r :: B) j
    (fun x hx => lt_of_lt_of_le (ends_lt_startAfter hsA x hx) h1)]
  exact valueAtRuns_head_eq r B h2

theorem sri_single_eval [DecidableEq α] (A : List (InternalRun α))
    (r : InternalRun α) (B : List (InternalRun α)) (start' end' : Nat) (v : α) :
    RleVec.set_range_internal ⟨A ++ r :: B⟩ start' A.length end' A.length v =
      if start' = startAfter A then
        if end' = r.end_ then some ⟨A ++ ⟨r.end_, v⟩ :: B⟩
        else some ⟨A ++ ⟨end', v⟩ :: r :: B⟩
      else
        if end' = r.end_ then some ⟨A ++ ⟨start' - 1, r.value⟩ :: ⟨end', v⟩ :: B⟩
        else some ⟨A ++ ⟨start' - 1, r.value⟩ :: ⟨end', v⟩ :: r :: B⟩ := by
  rcases List.eq_nil_or_concat A with rfl | ⟨M, q, rfl⟩
  · by_cases h1 : start' = 0 <;> by_cases h2 : end' = r.end_ <;>
      simp [RleVec.set_range_internal, spliceRuns, h1, h2, startAfter_nil,
        List.insertIdx_zero, List.insertIdx_succ_cons, List.set]
  · simp only [List.concat_eq_append] at *
    have hst : startAfter (M ++ [q]) = q.end_ + 1 := by
      rw [startAfter, List.getLast?_concat]
    rw [hst]
    rw [show (M ++ [q]).length = M.length + 1 from by simp]
    have hrw : (M ++ [q]) ++ r :: B = M ++ q :: r :: B := by simp
    rw [hrw]
    by_cases h1 : start' = q.end_ + 1 <;> by_cases h2 : end' = r.end_ <;>
      simp [RleVec.set_range_internal, spliceRuns, h1, h2,
        -List.getElem?_eq_getElem,
        getElem?_append_offset, getElem?_append_cons, set_append_offset,
        insertIdx_append_offset, take_append_offset, drop_append_offset,
        Nat.add_sub_cancel, Nat.add_assoc,
        List.insertIdx_zero, List.insertIdx_succ_cons, List.set,
        List.getElem?_cons_zero, List.getElem?_cons_succ]

theorem sri_single_spec [DecidableEq α] (A : List (InternalRun α))
    (r : InternalRun α) (B : List (InternalRun α)) (start' end' : Nat) (v : α)
    (hs : EndsSorted (A ++ r :: B))
    (hstart_lb : startAfter A ≤ start') (hstart_ub : start' ≤ r.end_)
    (hend_ub : end' ≤ r.end_) (hss : start' ≤ end') :
    ∃ runs',
      RleVec.set_range_internal ⟨A ++ r :: B⟩ start' A.length end' A.length v =
        some ⟨runs'⟩ ∧
      EndsSorted runs' ∧ startAfter runs' = startAfter (A ++ r :: B) ∧
      (∀ j, valueAtRuns runs' j =
        if start' ≤ j ∧ j ≤ end' then some v
        else valueAtRuns (A ++ r :: B) j) := by
  obtain ⟨hsA, hsB, hsl1, hsl2⟩ := chain'_decomp hs
  have hAlt : ∀ x ∈ A, x.end_ < start' :=
    fun x hx => lt_of_lt_of_le (ends_lt_startAfter hsA x hx) hstart_lb
  have hsrB : EndsSorted (r :: B) := @endsSorted_append_right _ A _ hs
  have hlastA : ∀ a ∈ A.getLast?, a.end_ + 1 = startAfter A :=
    fun a ha => (startAfter_of_getLast ha).symm
  rw [sri_single_eval]
  by_cases h1 : start' = startAfter A <;> by_cases h2 : end' = r.end_
  · -- flush on both sides: replace the run's value
    rw [if_pos h1, if_pos h2]
    refine ⟨A ++ ⟨r.end_, v⟩ :: B, rfl, ?_, ?_, ?_⟩
    · exact chain'_append_cons hsA
        (List.chain'_cons'.mpr ⟨fun y hy => hsl2 y hy, hsB⟩)
        (fun a ha => hsl1 a ha)
    · rw [startAfter_append_cons, startAfter_append_cons]
      exact startAfter_cons_eq_end _ _ _ rfl
    · refine pointwise_range_step A _ _ start' end' v hAlt ?_
      intro j hj
      by_cases hjr : j ≤ r.end_
      · rw [valueAtRuns_head_eq ⟨r.end_, v⟩ B (show j ≤ r.end_ from hjr),
          if_pos (by omega)]
      · rw [valueAtRuns_tail_eq ⟨r.end_, v⟩ B (show r.end_ < j from by omega),
          if_neg (by omega), valueAtRuns_tail_eq r B (by omega)]
  · -- flush left only: insert the new run before the (kept) tail of `r`
    rw [if_pos h1, if_neg h2]
    refine ⟨A ++ ⟨end', v⟩ :: r :: B, rfl, ?_, ?_, ?_⟩
    · refine chain'_append_cons hsA
        (List.chain'_cons.mpr ⟨show end' < r.end_ from by omega, hsrB⟩)
        (fun a ha => ?_)
      have := hlastA a ha
      show a.end_ < end'
      omega
    · rw [startAfter_append_cons, startAfter_append_cons, startAfter_cons_cons]
    · refine pointwise_range_step A _ _ start' end' v hAlt ?_
      intro j hj
      by_cases hje : j ≤ end'
      · rw [valueAtRuns_head_eq ⟨end', v⟩ (r :: B) (show j ≤ end' from hje),
          if_pos (by omega)]
      · rw [valueAtRuns_tail_eq ⟨end', v⟩ (r :: B) (show end' < j from by omega),
          if_neg (by omega)]
  · -- flush right only: truncate `r`, insert the new run after it
    rw [if_neg h1, if_pos h2]
    have hgt : startAfter A < start' := by
      rcases Nat.lt_or_ge (startAfter A) start' with h | h
      · exact h
      · omega
    refine ⟨A ++ ⟨start' - 1, r.value⟩ :: ⟨end', v⟩ :: B, rfl, ?_, ?_, ?_⟩
    · refine chain'_append_cons hsA
        (List.chain'_cons.mpr ⟨show start' - 1 < end' from by omega,
          List.chain'_cons'.mpr ⟨fun y hy => ?_, hsB⟩⟩)
        (fun a ha => ?_)
      · have := hsl2 y hy
        show end' < y.end_
        omega
      · have := hlastA a ha
        show a.end_ < start' - 1
        omega
    · rw [startAfter_append_cons, startAfter_append_cons, startAfter_cons_cons]
      exact startAfter_cons_eq_end _ _ _ h2
    · refine pointwise_range_step A _ _ start' end' v hAlt ?_
      intro j hj
      by_cases hjs : j ≤ start' - 1
      · rw [valueAtRuns_head_eq ⟨start' - 1, r.value⟩ _ (show j ≤ start' - 1 from hjs),
          if_neg (by omega), valueAtRuns_head_eq r B (by omega)]
      · by_cases hje : j ≤ end'
        · rw [valueAtRuns_tail_eq ⟨start' - 1, r.value⟩ _ (show start' - 1 < j from by omega),
            valueAtRuns_head_eq ⟨end', v⟩ B (show j ≤ end' from hje),
            if_pos (by omega)]
        · rw [valueAtRuns_tail_eq ⟨start' - 1, r.value⟩ _ (show start' - 1 < j from by omega),
            valueAtRuns_tail_eq ⟨end', v⟩ B (show end' < j from by omega),
            if_neg (by omega), valueAtRuns_tail_eq r B (by omega)]
  · -- no flush: split `r` around the overwritten span
    rw [if_neg h1, if_neg h2]
    have hgt : startAfter A < start' := by
      rcases Nat.lt_or_ge (startAfter A) start' with h | h
      · exact h
      · omega
    refine ⟨A ++ ⟨start' - 1, r.value⟩ :: ⟨end', v⟩ :: r :: B, rfl, ?_, ?_, ?_⟩
    · refine chain'_append_cons hsA
        (List.chain'_cons.mpr ⟨show start' - 1 < end' from by omega,
          List.chain'_cons.mpr ⟨show end' < r.end_ from by omega, hsrB⟩⟩)
        (fun a ha => ?_)
      have := hlastA a ha
      show a.end_ < start' - 1
      omega
    · rw [startAfter_append_cons, startAfter_append_cons, startAfter_cons_cons,
        startAfter_cons_cons]
    · refine pointwise_range_step A _ _ start' end' v hAlt ?_
      intro j hj
      by_cases hjs : j ≤ start' - 1
      · rw [valueAtRuns_head_eq ⟨start' - 1, r.value⟩ _ (show j ≤ start' - 1 from hjs),
          if_neg (by omega), valueAtRuns_head_eq r B (by omega)]
      · by_cases hje : j ≤ end'
        · rw [valueAtRuns_tail_eq ⟨start' - 1, r.value⟩ _ (show start' - 1 < j from by omega),
            valueAtRuns_head_eq ⟨end', v⟩ _ (show j ≤ end' from hje),
            if_pos (by omega)]
        · rw [valueAtRuns_tail_eq ⟨start' - 1, r.value⟩ _ (show start' - 1 < j from by omega),
            valueAtRuns_tail_eq ⟨end', v⟩ _ (show end' < j from by omega),
            if_neg (by omega)]

theorem flushLeft_eval [DecidableEq α] (L X : List (InternalRun α)) (s' : Nat) :
    (if L = [] then some (decide (s' = 0))
     else Option.map (fun r => decide (s' = r.end_ + 1)) ((L ++ X)[L.length - 1]?))
    = some (decide (s' = startAfter L)) := by
  rcases List.eq_nil_or_concat L with rfl | ⟨M, q, rfl⟩
  · simp [startAfter_nil]
  · simp only [List.concat_eq_append] at *
    rw [if_neg (by simp)]
    have hq : ((M ++ [q]) ++ X)[(M ++ [q]).length - 1]? = some q := by
      rw [List.append_assoc, List.singleton_append]
      rw [show (M ++ [q]).length - 1 = M.length from by simp]
      exact getElem?_append_cons _ _ _
    have h2 : startAfter (M ++ [q]) = q.end_ + 1 := by
      rw [startAfter, List.getLast?_concat]
    rw [hq, Option.map_some', h2]

theorem sri_multi_eval [DecidableEq α] (A : List (InternalRun α))
    (m0 : InternalRun α) (C : List (InternalRun α)) (me : InternalRun α)
    (B : List (InternalRun α)) (start' end' : Nat) (v : α) :
    RleVec.set_range_internal ⟨A ++ m0 :: (C ++ me :: B)⟩ start' A.length end'
        (A.length + (C.length + 1)) v =
      if start' = startAfter A then
        if end' = me.end_ then some ⟨A ++ ⟨end', v⟩ :: B⟩
        else some ⟨A ++ ⟨end', v⟩ :: me :: B⟩
      else
        if end' = me.end_ then some ⟨A ++ ⟨start' - 1, m0.value⟩ :: ⟨end', v⟩ :: B⟩
        else some ⟨A ++ ⟨start' - 1, m0.value⟩ :: ⟨end', v⟩ :: me :: B⟩ := by
  have h_rend : (A ++ m0 :: (C ++ me :: B))[A.length + (C.length + 1)]? = some me := by
    rw [getElem?_append_offset, List.getElem?_cons_succ]
    exact getElem?_append_cons _ _ _
  have h_ne : A.length ≠ A.length + (C.length + 1) := by omega
  have h_take0 : (A ++ m0 :: (C ++ me :: B)).take A.length = A := take_append_eq _ _
  have h_take1 : (A ++ m0 :: (C ++ me :: B)).take (A.length + 1) = A ++ [m0] := by
    rw [take_append_offset]
    rfl
  have h_drop_e :
      (A ++ m0 :: (C ++ me :: B)).drop (A.length + (C.length + 1)) = me :: B := by
    rw [drop_append_offset, List.drop_succ_cons, drop_append_eq]
  have h_drop_e1 :
      (A ++ m0 :: (C ++ me :: B)).drop (A.length + (C.length + 1) + 1) = B := by
    rw [Nat.add_assoc, drop_append_offset, List.drop_succ_cons,
      drop_append_offset, List.drop_succ_cons, List.drop_zero]
  by_cases h1 : start' = startAfter A <;> by_cases h2 : end' = me.end_ <;>
    simp [RleVec.set_range_internal, spliceRuns, flushLeft_eval, h_rend, h_ne,
      h_take0, h_take1, h_drop_e, h_drop_e1, h1, h2,
      -List.getElem?_eq_getElem, getElem?_append_cons, set_append_cons]

theorem sri_multi_spec [DecidableEq α] (A : List (InternalRun α))
    (m0 : InternalRun α) (C : List (InternalRun α)) (me : InternalRun α)
    (B : List (InternalRun α)) (start' end' : Nat) (v : α)
    (hs : EndsSorted (A ++ m0 :: (C ++ me :: B)))
    (hstart_lb : startAfter A ≤ start') (hstart_ub : start' ≤ m0.end_)
    (hend_lb : startAfter (A ++ m0 :: C) ≤ end') (hend_ub : end' ≤ me.end_) :
    ∃ runs',
      RleVec.set_range_internal ⟨A ++ m0 :: (C ++ me :: B)⟩ start' A.length end'
          (A.length + (C.length + 1)) v = some ⟨runs'⟩ ∧
      EndsSorted runs' ∧
      startAfter runs' = startAfter (A ++ m0 :: (C ++ me :: B)) ∧
      (∀ j, valueAtRuns runs' j =
        if start' ≤ j ∧ j ≤ end' then some v
        else valueAtRuns (A ++ m0 :: (C ++ me :: B)) j) := by
  have hassoc : A ++ m0 :: (C ++ me :: B) = (A ++ m0 :: C) ++ me :: B := by simp
  obtain ⟨hsA, -, hsl1, -⟩ := chain'_decomp hs
  have hsP : EndsSorted (A ++ m0 :: C) := by
    rw [hassoc] at hs
    exact endsSorted_append_left hs
  have hsmeB : EndsSorted (me :: B) := by
    rw [hassoc] at hs
    exact @endsSorted_append_right _ (A ++ m0 :: C) _ hs
  have hsB : EndsSorted B := (List.chain'_cons'.mp hsmeB).2
  have hmeB : ∀ y ∈ B.head?, me.end_ < y.end_ := (List.chain'_cons'.mp hsmeB).1
  have hEndsP : ∀ x ∈ A ++ m0 :: C, x.end_ < startAfter (A ++ m0 :: C) :=
    ends_lt_startAfter hsP
  have hm0P : m0.end_ < startAfter (A ++ m0 :: C) := hEndsP m0 (by simp)
  have hlt_se : start' < end' := by
    have := hm0P
    omega
  have hAlt : ∀ x ∈ A, x.end_ < start' :=
    fun x hx => lt_of_lt_of_le (ends_lt_startAfter hsA x hx) hstart_lb
  have hlastA : ∀ a ∈ A.getLast?, a.end_ + 1 = startAfter A :=
    fun a ha => (startAfter_of_getLast ha).symm
  have hm0C_lt : ∀ x ∈ m0 :: C, x.end_ < end' :=
    fun x hx => lt_of_lt_of_le (hEndsP x (by simp [hx])) hend_lb
  rw [sri_multi_eval]
  by_cases h1 : start' = startAfter A <;> by_cases h2 : end' = me.end_
  · -- flush both sides: collapse the whole span into one record
    rw [if_pos h1, if_pos h2]
    refine ⟨A ++ ⟨end', v⟩ :: B, rfl, ?_, ?_, ?_⟩
    · refine chain'_append_cons hsA
        (List.chain'_cons'.mpr ⟨fun y hy => ?_, hsB⟩) (fun a ha => ?_)
      · have := hmeB y hy
        show end' < y.end_
        omega
      · have := hlastA a ha
        show a.end_ < end'
        omega
    · rw [hassoc, startAfter_append_cons, startAfter_append_cons]
      exact startAfter_cons_eq_end _ _ _ h2
    · refine pointwise_range_step A _ _ start' end' v hAlt ?_
      intro j hj
      by_cases hje : j ≤ end'
      · rw [valueAtRuns_head_eq ⟨end', v⟩ B (show j ≤ end' from hje),
          if_pos (by omega)]
      · rw [valueAtRuns_tail_eq ⟨end', v⟩ B (show end' < j from by omega),
          if_neg (by omega), show m0 :: (C ++ me :: B) = (m0 :: C) ++ me :: B from rfl,
          valueAtRuns_append_of_lt _ _ j (fun x hx => by
            have := hm0C_lt x hx
            omega),
          valueAtRuns_tail_eq me B (by omega)]
  · -- flush left only: keep the clipped right run
    rw [if_pos h1, if_neg h2]
    refine ⟨A ++ ⟨end', v⟩ :: me :: B, rfl, ?_, ?_, ?_⟩
    · refine chain'_append_cons hsA
        (List.chain'_cons.mpr ⟨show end' < me.end_ from by omega, hsmeB⟩)
        (fun a ha => ?_)
      have := hlastA a ha
      show a.end_ < end'
      omega
    · rw [hassoc, startAfter_append_cons, startAfter_append_cons,
        startAfter_cons_cons]
    · refine pointwise_range_step A _ _ start' end' v hAlt ?_
      intro j hj
      by_cases hje : j ≤ end'
      · rw [valueAtRuns_head_eq ⟨end', v⟩ (me :: B) (show j ≤ end' from hje),
          if_pos (by omega)]
      · rw [valueAtRuns_tail_eq ⟨end', v⟩ (me :: B) (show end' < j from by omega),
          if_neg (by omega), show m0 :: (C ++ me :: B) = (m0 :: C) ++ me :: B from rfl,
          valueAtRuns_append_of_lt _ _ j (fun x hx => by
            have := hm0C_lt x hx
            omega)]
  · -- flush right only: clip the left run, collapse the rest
    rw [if_neg h1, if_pos h2]
    have hgt : startAfter A < start' := by
      rcases Nat.lt_or_ge (startAfter A) start' with h | h
      · exact h
      · omega
    refine ⟨A ++ ⟨start' - 1, m0.value⟩ :: ⟨end', v⟩ :: B, rfl, ?_, ?_, ?_⟩
    · refine chain'_append_cons hsA
        (List.chain'_cons.mpr ⟨show start' - 1 < end' from by omega,
          List.chain'_cons'.mpr ⟨fun y hy => ?_, hsB⟩⟩)
        (fun a ha => ?_)
      · have := hmeB y hy
        show end' < y.end_
        omega
      · have := hlastA a ha
        show a.end_ < start' - 1
        omega
    · rw [hassoc, startAfter_append_cons, startAfter_append_cons,
        startAfter_cons_cons]
      exact startAfter_cons_eq_end _ _ _ h2
    · refine pointwise_range_step A _ _ start' end' v hAlt ?_
      intro j hj
      by_cases hjs : j ≤ start' - 1
      · rw [valueAtRuns_head_eq ⟨start' - 1, m0.value⟩ _ (show j ≤ start' - 1 from hjs),
          if_neg (by omega), valueAtRuns_head_eq m0 _ (by omega)]
      · by_cases hje : j ≤ end'
        · rw [valueAtRuns_tail_eq ⟨start' - 1, m0.value⟩ _
              (show start' - 1 < j from by omega),
            valueAtRuns_head_eq ⟨end', v⟩ B (show j ≤ end' from hje),
            if_pos (by omega)]
        · rw [valueAtRuns_tail_eq ⟨start' - 1, m0.value⟩ _
              (show start' - 1 < j from by omega),
            valueAtRuns_tail_eq ⟨end', v⟩ B (show end' < j from by omega),
            if_neg (by omega), show m0 :: (C ++ me :: B) = (m0 :: C) ++ me :: B from rfl,
            valueAtRuns_append_of_lt _ _ j (fun x hx => by
              have := hm0C_lt x hx
              omega),
            valueAtRuns_tail_eq me B (by omega)]
  · -- no flush: clip both boundary runs
    rw [if_neg h1, if_neg h2]
    have hgt : startAfter A < start' := by
      rcases Nat.lt_or_ge (startAfter A) start' with h | h
      · exact h
      · omega
    refine ⟨A ++ ⟨start' - 1, m0.value⟩ :: ⟨end', v⟩ :: me :: B, rfl, ?_, ?_, ?_⟩
    · refine chain'_append_cons hsA
        (List.chain'_cons.mpr ⟨show start' - 1 < end' from by omega,
          List.chain'_cons.mpr ⟨show end' < me.end_ from by omega, hsmeB⟩⟩)
        (fun a ha => ?_)
      have := hlastA a ha
      show a.end_ < start' - 1
      omega
    · rw [hassoc, startAfter_append_cons, startAfter_append_cons,
        startAfter_cons_cons, startAfter_cons_cons]
    · refine pointwise_range_step A _ _ start' end' v hAlt ?_
      intro j hj
      by_cases hjs : j ≤ start' - 1
      · rw [valueAtRuns_head_eq ⟨start' - 1, m0.value⟩ _ (show j ≤ start' - 1 from hjs),
          if_neg (by omega), valueAtRuns_head_eq m0 _ (by omega)]
      · by_cases hje : j ≤ end'
        · rw [valueAtRuns_tail_eq ⟨start' - 1, m0.value⟩ _
              (show start' - 1 < j from by omega),
            valueAtRuns_head_eq ⟨end', v⟩ (me :: B) (show j ≤ end' from hje),
            if_pos (by omega)]
        · rw [valueAtRuns_tail_eq ⟨start' - 1, m0.value⟩ _
              (show start' - 1 < j from by omega),
            valueAtRuns_tail_eq ⟨end', v⟩ (me :: B) (show end' < j from by omega),
            if_neg (by omega), show m0 :: (C ++ me :: B) = (m0 :: C) ++ me :: B from rfl,
            valueAtRuns_append_of_lt _ _ j (fun x hx => by
              have := hm0C_lt x hx
              omega)]

theorem set_range_internal_spec [DecidableEq α] (runs : List (InternalRun α))
    (hs : EndsSorted runs)
    {s_idx e_idx start' end' : Nat} (v : α) {rs re : InternalRun α}
    (hrs : runs[s_idx]? = some rs)
    (hre : runs[e_idx]? = some re)
    (hse : s_idx ≤ e_idx)
    (hstart_lb : startAfter (runs.take s_idx) ≤ start')
    (hstart_ub : start' ≤ rs.end_)
    (hend_lb : startAfter (runs.take e_idx) ≤ end')
    (hend_ub : end' ≤ re.end_)
    (hss : start' ≤ end') :
    ∃ runs', RleVec.set_range_internal ⟨runs⟩ start' s_idx end' e_idx v =
        some ⟨runs'⟩ ∧
      EndsSorted runs' ∧ startAfter runs' = startAfter runs ∧
      (∀ j, valueAtRuns runs' j =
        if start' ≤ j ∧ j ≤ end' then some v else valueAtRuns runs j) := by
  obtain ⟨hslt, hgs⟩ := List.getElem?_eq_some.mp hrs
  obtain ⟨helt, hge⟩ := List.getElem?_eq_some.mp hre
  rcases Nat.eq_or_lt_of_le hse with rfl | hlt
  · -- span inside one run
    have hrse : rs = re := by
      rw [hrs] at hre
      exact (Option.some.injEq _ _).mp hre
    subst hrse
    have hdec : runs = runs.take s_idx ++ rs :: runs.drop (s_idx + 1) := by
      rw [← hgs, ← List.drop_eq_getElem_cons hslt, List.take_append_drop]
    have hlens : (runs.take s_idx).length = s_idx := by
      rw [List.length_take]
      omega
    have H := sri_single_spec (runs.take s_idx) rs (runs.drop (s_idx + 1))
      start' end' v (hdec ▸ hs) hstart_lb hstart_ub hend_ub hss
    rw [hlens] at H
    rw [hdec]
    exact H
  · -- span across at least two runs
    obtain ⟨d, rfl⟩ : ∃ d, e_idx = s_idx + d + 1 := ⟨e_idx - s_idx - 1, by omega⟩
    have hdec1 : runs = runs.take s_idx ++ rs :: runs.drop (s_idx + 1) := by
      rw [← hgs, ← List.drop_eq_getElem_cons hslt, List.take_append_drop]
    have hlens : (runs.take s_idx).length = s_idx := by
      rw [List.length_take]
      omega
    have hreD : (runs.drop (s_idx + 1))[d]? = some re := by
      rw [List.getElem?_drop]
      rw [show s_idx + 1 + d = s_idx + d + 1 from by omega]
      exact hre
    obtain ⟨heltD, hgeD⟩ := List.getElem?_eq_some.mp hreD
    have hdec2 : runs.drop (s_idx + 1) =
        (runs.drop (s_idx + 1)).take d ++
          re :: (runs.drop (s_idx + 1)).drop (d + 1) := by
      rw [← hgeD, ← List.drop_eq_getElem_cons heltD, List.take_append_drop]
    have hlenC : ((runs.drop (s_idx + 1)).take d).length = d := by
      rw [List.length_take]
      omega
    have hdec : runs = runs.take s_idx ++ rs ::
        ((runs.drop (s_idx + 1)).take d ++
          re :: (runs.drop (s_idx + 1)).drop (d + 1)) := by
      rw [← hdec2]
      exact hdec1
    have htake_e : runs.take (s_idx + d + 1) = runs.take s_idx ++ rs ::
        (runs.drop (s_idx + 1)).take d := by
      conv =>
        lhs
        rw [hdec1]
      rw [show s_idx + d + 1 = (runs.take s_idx).length + (d + 1) from by omega,
        take_append_offset, List.take_succ_cons]
    have H := sri_multi_spec (runs.take s_idx) rs
      ((runs.drop (s_idx + 1)).take d) re
      ((runs.drop (s_idx + 1)).drop (d + 1))
      start' end' v (hdec ▸ hs) hstart_lb hstart_ub
      (by
        rw [← htake_e]
        exact hend_lb)
      hend_ub
    rw [hlens, hlenC] at H
    rw [show s_idx + (d + 1) = s_idx + d + 1 from by omega] at H
    rw [hdec]
    exact H

/-- Combine `set_range_internal_spec` with the snapping facts: positions the
snapping added on either side of the requested span already carried the new
value, so overwriting the widened span changes exactly the requested span. -/
theorem set_range_finish [DecidableEq α] (runs : List (InternalRun α))
    (hs : EndsSorted runs) (s e : Nat) (v : α)
    {s_idx e_idx start2 end2 : Nat} {rs re : InternalRun α}
    (hrs : runs[s_idx]? = some rs) (hre : runs[e_idx]? = some re)
    (hse : s_idx ≤ e_idx)
    (hstart_lb : startAfter (runs.take s_idx) ≤ start2)
    (hstart_ub : start2 ≤ rs.end_)
    (hend_lb : startAfter (runs.take e_idx) ≤ end2)
    (hend_ub : end2 ≤ re.end_)
    (hs2 : start2 ≤ s) (he2 : e ≤ end2) (hsse : s ≤ e)
    (hF5 : ∀ j, start2 ≤ j → j < s → valueAtRuns runs j = some v)
    (hF6 : ∀ j, e < j → j ≤ end2 → valueAtRuns runs j = some v) :
    ∃ runs', RleVec.set_range_internal ⟨runs⟩ start2 s_idx end2 e_idx v =
        some ⟨runs'⟩ ∧
      EndsSorted runs' ∧ startAfter runs' = startAfter runs ∧
      (∀ j, valueAtRuns runs' j =
        if s ≤ j ∧ j ≤ e then some v else valueAtRuns runs j) := by
  obtain ⟨runs', heq, hsrt, hsa, hptw⟩ := set_range_internal_spec runs hs v hrs hre
    hse hstart_lb hstart_ub hend_lb hend_ub (by omega)
  refine ⟨runs', heq, hsrt, hsa, fun j => ?_⟩
  rw [hptw j]
  by_cases hin : start2 ≤ j ∧ j ≤ end2
  · by_cases hin2 : s ≤ j ∧ j ≤ e
    · rw [if_pos hin, if_pos hin2]
    · rw [if_pos hin, if_neg hin2]
      rcases Nat.lt_or_ge j s with hjs | hjs
      · exact (hF5 j hin.1 hjs).symm
      · exact (hF6 j (by omega) hin.2).symm
  · rw [if_neg hin, if_neg (by omega)]

theorem set_range_spec [DecidableEq α] (rle : RleVec α) (h : rle.Inv)
    {s l : Nat} (v : α) (hl2 : 2 ≤ l) (hsl : s + l ≤ rle.len) :
    ∃ rle', rle.set_range s l v = some rle' ∧ EndsSorted rle'.runs ∧
      rle'.len = rle.len ∧
      (∀ j, rle'.valueAt j =
        if s ≤ j ∧ j < s + l then some v else rle.valueAt j) := by
  obtain ⟨hsort, hvals⟩ := h
  have hslen : s < rle.len := by omega
  obtain ⟨L₁, rL, L₂, hruns, hinfo, hL₁lt, hsrL, hstaL₁⟩ :=
    index_info_decomp rle hsort hslen
  have hrL : rle.runs[L₁.length]? = some rL := by
    rw [hruns]
    exact getElem?_append_cons _ _ _
  have htakeL : rle.runs.take L₁.length = L₁ := by
    rw [hruns]
    exact take_append_eq _ _
  have hlen_runs : rle.runs.length = L₁.length + 1 + L₂.length := by
    rw [hruns]
    simp
    omega
  have hwinL : ∀ j, startAfter L₁ ≤ j → j ≤ rL.end_ →
      valueAtRuns rle.runs j = some rL.value := by
    intro j h1 h2
    rw [hruns]
    exact valueAtRuns_window L₂ (by
      rw [hruns] at hsort
      exact endsSorted_append_left hsort) h1 h2
  have hfin : ∀ (s_idx e_idx start2 end2 : Nat) (rs re : InternalRun α),
      rle.runs[s_idx]? = some rs → rle.runs[e_idx]? = some re → s_idx ≤ e_idx →
      startAfter (rle.runs.take s_idx) ≤ start2 → start2 ≤ rs.end_ →
      startAfter (rle.runs.take e_idx) ≤ end2 → end2 ≤ re.end_ →
      start2 ≤ s → s + l - 1 ≤ end2 →
      (∀ j, start2 ≤ j → j < s → valueAtRuns rle.runs j = some v) →
      (∀ j, s + l - 1 < j → j ≤ end2 → valueAtRuns rle.runs j = some v) →
      ∃ rle', rle.set_range_internal start2 s_idx end2 e_idx v = some rle' ∧
        EndsSorted rle'.runs ∧ rle'.len = rle.len ∧
        (∀ j, rle'.valueAt j =
          if s ≤ j ∧ j < s + l then some v else rle.valueAt j) := by
    intro s_idx e_idx start2 end2 rs re hrs hre hse hlb hub helb heub hs2 he2 hF5 hF6
    obtain ⟨runs0⟩ := rle
    obtain ⟨runs', heq, hsrt, hsa, hptw⟩ := set_range_finish runs0 hsort
      s (s + l - 1) v hrs hre hse hlb hub helb heub hs2 he2
      (by omega) hF5 hF6
    refine ⟨⟨runs'⟩, heq, hsrt, ?_, fun j => ?_⟩
    · rw [len_eq_startAfter, len_eq_startAfter]
      exact hsa
    · rw [RleVec.valueAt, RleVec.valueAt, hptw j]
      by_cases hin : s ≤ j ∧ j ≤ s + l - 1
      · rw [if_pos hin, if_pos (by omega)]
      · rw [if_neg hin, if_neg (by omega)]
  clear hvals
  simp only [RleVec.set_range, hinfo, hrL]
  rw [if_neg (show ¬ l = 0 from by omega), if_neg (show ¬ l = 1 from by omega)]
  have hstepL : ∃ si st2 rs,
      (if (if startAfter L₁ ≤ s ∧ rL.value = v then startAfter L₁ else s) =
            startAfter L₁ ∧ 0 < L₁.length then
        match rle.runs[L₁.length - 1]? with
        | none => none
        | some rprev =>
          if rprev.value = v then
            if L₁.length = 1 then some (0, 0)
            else
              match rle.runs[L₁.length - 2]? with
              | none => none
              | some rprev2 => some (L₁.length - 1, rprev2.end_ + 1)
          else
            some (L₁.length,
              if startAfter L₁ ≤ s ∧ rL.value = v then startAfter L₁ else s)
      else
        some (L₁.length,
          if startAfter L₁ ≤ s ∧ rL.value = v then startAfter L₁ else s)) =
        some (si, st2) ∧
      rle.runs[si]? = some rs ∧ si ≤ L₁.length ∧
      startAfter (rle.runs.take si) ≤ st2 ∧ st2 ≤ rs.end_ ∧ st2 ≤ s ∧
      (∀ j, st2 ≤ j → j < s → valueAtRuns rle.runs j = some v) := by
    by_cases hv : rL.value = v
    · rw [if_pos (show startAfter L₁ ≤ s ∧ rL.value = v from ⟨hstaL₁, hv⟩)]
      rcases List.eq_nil_or_concat L₁ with rfl | ⟨M, q, rfl⟩
      · rw [if_neg (by simp)]
        refine ⟨_, _, rL, rfl, hrL, Nat.le_refl _, ?_, ?_, ?_, ?_⟩
        · simp [startAfter]
        · simp [startAfter_nil]
        · rw [startAfter_nil]
          omega
        · intro j h1 h2
          rw [hwinL j h1 (by omega), hv]
      · simp only [List.concat_eq_append] at *
        rw [if_pos (show True ∧ 0 < (M ++ [q]).length from ⟨trivial, by simp⟩)]
        have hq : rle.runs[(M ++ [q]).length - 1]? = some q := by
          rw [hruns, show (M ++ [q]).length - 1 = M.length from by simp,
            List.append_assoc, List.singleton_append]
          exact getElem?_append_cons _ _ _
        have hqs : q.end_ < s := hL₁lt q (by simp)
        have hsaq : startAfter (M ++ [q]) = q.end_ + 1 := by
          rw [startAfter, List.getLast?_concat]
        have hwinQ : ∀ j, startAfter M ≤ j → j ≤ q.end_ →
            valueAtRuns rle.runs j = some q.value := by
          intro j h1 h2
          rw [hruns, List.append_assoc, List.singleton_append]
          refine valueAtRuns_window _ ?_ h1 h2
          have := hsort
          rw [hruns, List.append_assoc, List.singleton_append] at this
          exact endsSorted_append_left this
        simp only [hq]
        by_cases hqv : q.value = v
        · rw [if_pos hqv]
          rcases List.eq_nil_or_concat M with rfl | ⟨N, p, rfl⟩
          · rw [if_pos (by simp)]
            refine ⟨0, 0, q, rfl, ?_, Nat.zero_le _, ?_, Nat.zero_le _,
              Nat.zero_le _, ?_⟩
            · rw [hruns]
              simp
            · simp [startAfter]
            · intro j h1 h2
              by_cases hjq : j ≤ q.end_
              · rw [hwinQ j (by simp [startAfter_nil]) hjq, hqv]
              · rw [hwinL j (by rw [hsaq] at hstaL₁ ⊢; omega) (by omega), hv]
          · simp only [List.concat_eq_append] at *
            have hp : rle.runs[((N ++ [p]) ++ [q]).length - 2]? = some p := by
              rw [hruns, show ((N ++ [p]) ++ [q]).length - 2 = N.length from by
                  simp only [List.length_append, List.length_cons, List.length_nil]
                  omega,
                List.append_assoc, List.append_assoc, List.singleton_append,
                List.singleton_append]
              exact getElem?_append_cons _ _ _
            rw [if_neg (show ¬((N ++ [p]) ++ [q]).length = 1 from by
              simp only [List.length_append, List.length_cons, List.length_nil]
              omega)]
            simp only [hp]
            have hpq : p.end_ < q.end_ := by
              refine pairwise_ends_getElem? (endsSorted_pairwise hsort)
                (show ((N ++ [p]) ++ [q]).length - 2 < ((N ++ [p]) ++ [q]).length - 1 from by
                  simp only [List.length_append, List.length_cons, List.length_nil]
                  omega) hp hq
            have hps : p.end_ < s := hL₁lt p (by simp)
            have hsap : startAfter (N ++ [p]) = p.end_ + 1 := by
              rw [startAfter, List.getLast?_concat]
            refine ⟨((N ++ [p]) ++ [q]).length - 1, p.end_ + 1, q, rfl, hq, Nat.sub_le _ _,
              ?_, by omega, by omega, ?_⟩
            · rw [show ((N ++ [p]) ++ [q]).length - 1 = (N ++ [p]).length from by
                  simp only [List.length_append, List.length_cons, List.length_nil]
                  omega]
              rw [hruns, List.append_assoc, List.singleton_append, take_append_eq, hsap]
            · intro j h1 h2
              by_cases hjq : j ≤ q.end_
              · rw [hwinQ j (by rw [hsap]; omega) hjq, hqv]
              · rw [hwinL j (by rw [hsaq] at hstaL₁ ⊢; omega) (by omega), hv]
        · rw [if_neg hqv]
          have hqrL : q.end_ < rL.end_ := by
            refine pairwise_ends_getElem? (endsSorted_pairwise hsort)
              (show (M ++ [q]).length - 1 < (M ++ [q]).length from by simp) hq hrL
          refine ⟨(M ++ [q]).length, startAfter (M ++ [q]), rL, rfl, hrL,
            Nat.le_refl _, ?_, by rw [hsaq]; omega, hstaL₁, ?_⟩
          · rw [htakeL]
          · intro j h1 h2
            rw [hwinL j h1 (by omega), hv]
    · rw [if_neg (show ¬(startAfter L₁ ≤ s ∧ rL.value = v) from fun hc => hv hc.2)]
      by_cases hb : s = startAfter L₁ ∧ 0 < L₁.length
      · obtain ⟨hsb, hpos⟩ := hb
        rw [if_pos ⟨hsb, hpos⟩]
        rcases List.eq_nil_or_concat L₁ with rfl | ⟨M, q, rfl⟩
        · simp at hpos
        · simp only [List.concat_eq_append] at *
          have hq : rle.runs[(M ++ [q]).length - 1]? = some q := by
            rw [hruns, show (M ++ [q]).length - 1 = M.length from by simp,
              List.append_assoc, List.singleton_append]
            exact getElem?_append_cons _ _ _
          have hqs : q.end_ < s := hL₁lt q (by simp)
          have hsaq : startAfter (M ++ [q]) = q.end_ + 1 := by
            rw [startAfter, List.getLast?_concat]
          have hwinQ : ∀ j, startAfter M ≤ j → j ≤ q.end_ →
              valueAtRuns rle.runs j = some q.value := by
            intro j h1 h2
            rw [hruns, List.append_assoc, List.singleton_append]
            refine valueAtRuns_window _ ?_ h1 h2
            have := hsort
            rw [hruns, List.append_assoc, List.singleton_append] at this
            exact endsSorted_append_left this
          simp only [hq]
          by_cases hqv : q.value = v
          · rw [if_pos hqv]
            rcases List.eq_nil_or_concat M with rfl | ⟨N, p, rfl⟩
            · rw [if_pos (by simp)]
              refine ⟨0, 0, q, rfl, ?_, Nat.zero_le _, ?_, Nat.zero_le _,
                Nat.zero_le _, ?_⟩
              · rw [hruns]
                simp
              · simp [startAfter]
              · intro j h1 h2
                by_cases hjq : j ≤ q.end_
                · rw [hwinQ j (by simp [startAfter_nil]) hjq, hqv]
                · exfalso
                  rw [hsb, hsaq] at h2
                  omega
            · simp only [List.concat_eq_append] at *
              have hp : rle.runs[((N ++ [p]) ++ [q]).length - 2]? = some p := by
                rw [hruns, show ((N ++ [p]) ++ [q]).length - 2 = N.length from by
                    simp only [List.length_append, List.length_cons, List.length_nil]
                    omega,
                  List.append_assoc, List.append_assoc, List.singleton_append,
                  List.singleton_append]
                exact getElem?_append_cons _ _ _
              rw [if_neg (show ¬((N ++ [p]) ++ [q]).length = 1 from by
                simp only [List.length_append, List.length_cons, List.length_nil]
                omega)]
              simp only [hp]
              have hpq : p.end_ < q.end_ := by
                refine pairwise_ends_getElem? (endsSorted_pairwise hsort)
                  (show ((N ++ [p]) ++ [q]).length - 2 < ((N ++ [p]) ++ [q]).length - 1 from by
                    simp only [List.length_append, List.length_cons, List.length_nil]
                    omega) hp hq
              have hps : p.end_ < s := hL₁lt p (by simp)
              have hsap : startAfter (N ++ [p]) = p.end_ + 1 := by
                rw [startAfter, List.getLast?_concat]
              refine ⟨((N ++ [p]) ++ [q]).length - 1, p.end_ + 1, q, rfl, hq,
                Nat.sub_le _ _, ?_, by omega, by omega, ?_⟩
              · rw [show ((N ++ [p]) ++ [q]).length - 1 = (N ++ [p]).length from by
                    simp only [List.length_append, List.length_cons, List.length_nil]
                    omega]
                rw [hruns, List.append_assoc, List.singleton_append, take_append_eq, hsap]
              · intro j h1 h2
                by_cases hjq : j ≤ q.end_
                · rw [hwinQ j (by rw [hsap]; omega) hjq, hqv]
                · exfalso
                  rw [hsb, hsaq] at h2
                  omega
          · rw [if_neg hqv]
            refine ⟨(M ++ [q]).length, s, rL, rfl, hrL, Nat.le_refl _, ?_, hsrL,
              Nat.le_refl _, ?_⟩
            · rw [htakeL]
              exact hstaL₁
            · intro j h1 h2
              omega
      · rw [if_neg hb]
        refine ⟨L₁.length, s, rL, rfl, hrL, Nat.le_refl _, ?_, hsrL,
          Nat.le_refl _, ?_⟩
        · rw [htakeL]
          exact hstaL₁
        · intro j h1 h2
          omega

  have hstepR : ∃ ei e2 re,
      (if s + l - 1 ≤ rL.end_ then
        if (rL.end_ = if rL.value = v then rL.end_ else s + l - 1) ∧
            L₁.length + 1 < rle.runs.length then
          match rle.runs[L₁.length + 1]? with
          | none => none
          | some rnext =>
            if rnext.value = v then some (L₁.length + 1, rnext.end_)
            else some (L₁.length, if rL.value = v then rL.end_ else s + l - 1)
        else some (L₁.length, if rL.value = v then rL.end_ else s + l - 1)
      else
        match rle.index_info (s + l - 1) with
        | none => none
        | some (right_run_idx, _, right_run_end) =>
          match rle.runs[right_run_idx]? with
          | none => none
          | some rrun =>
            if (right_run_end ≤
                  if s + l - 1 < right_run_end ∧ rrun.value = v then right_run_end
                  else s + l - 1) ∧
                right_run_idx + 1 < rle.runs.length then
              match rle.runs[right_run_idx + 1]? with
              | none => none
              | some rnext =>
                if rnext.value = v then some (right_run_idx + 1, rnext.end_)
                else
                  some (right_run_idx,
                    if s + l - 1 < right_run_end ∧ rrun.value = v then right_run_end
                    else s + l - 1)
            else
              some (right_run_idx,
                if s + l - 1 < right_run_end ∧ rrun.value = v then right_run_end
                else s + l - 1)) = some (ei, e2) ∧
      rle.runs[ei]? = some re ∧ L₁.length ≤ ei ∧
      startAfter (rle.runs.take ei) ≤ e2 ∧ e2 ≤ re.end_ ∧ s + l - 1 ≤ e2 ∧
      (∀ j, s + l - 1 < j → j ≤ e2 → valueAtRuns rle.runs j = some v) := by
    by_cases hR1 : s + l - 1 ≤ rL.end_
    · rw [if_pos hR1]
      by_cases hv : rL.value = v
      · rw [if_pos hv]
        cases L₂ with
        | nil =>
          rw [if_neg (show ¬(rL.end_ = rL.end_ ∧ L₁.length + 1 < rle.runs.length) from
            fun hc => by
              rw [hlen_runs] at hc
              simp only [List.length_nil] at hc
              omega)]
          refine ⟨L₁.length, rL.end_, rL, rfl, hrL, Nat.le_refl _, ?_, Nat.le_refl _,
            hR1, ?_⟩
          · rw [htakeL]
            omega
          · intro j h1 h2
            rw [hwinL j (by omega) h2, hv]
        | cons rn L₂' =>
          have hrn : rle.runs[L₁.length + 1]? = some rn := by
            rw [hruns, getElem?_append_offset]
            simp
          have hlink : rL.end_ < rn.end_ :=
            pairwise_ends_getElem? (endsSorted_pairwise hsort) (Nat.lt_succ_self _)
              hrL hrn
          have hta1 : rle.runs.take (L₁.length + 1) = L₁ ++ [rL] := by
            rw [hruns, take_append_offset]
            rfl
          have hstaLrL : startAfter (L₁ ++ [rL]) = rL.end_ + 1 := by
            rw [startAfter, List.getLast?_concat]
          have hwinN : ∀ j, rL.end_ + 1 ≤ j → j ≤ rn.end_ →
              valueAtRuns rle.runs j = some rn.value := by
            intro j h1 h2
            rw [hruns, show L₁ ++ rL :: rn :: L₂' = (L₁ ++ [rL]) ++ rn :: L₂' from by simp]
            refine valueAtRuns_window _ ?_ (by rw [hstaLrL]; omega) h2
            have := hsort
            rw [hruns, show L₁ ++ rL :: rn :: L₂' = (L₁ ++ [rL]) ++ rn :: L₂' from by
              simp] at this
            exact endsSorted_append_left this
          rw [if_pos ⟨rfl, by
            rw [hlen_runs]
            simp only [List.length_cons]
            omega⟩]
          simp only [hrn]
          by_cases hrnv : rn.value = v
          · rw [if_pos hrnv]
            refine ⟨L₁.length + 1, rn.end_, rn, rfl, hrn, Nat.le_succ _, ?_,
              Nat.le_refl _, by omega, ?_⟩
            · rw [hta1, hstaLrL]
              omega
            · intro j h1 h2
              by_cases hjr : j ≤ rL.end_
              · rw [hwinL j (by omega) hjr, hv]
              · rw [hwinN j (by omega) h2, hrnv]
          · rw [if_neg hrnv]
            refine ⟨L₁.length, rL.end_, rL, rfl, hrL, Nat.le_refl _, ?_,
              Nat.le_refl _, hR1, ?_⟩
            · rw [htakeL]
              omega
            · intro j h1 h2
              rw [hwinL j (by omega) h2, hv]
      · rw [if_neg hv]
        by_cases hfre : rL.end_ = s + l - 1
        · cases L₂ with
          | nil =>
            rw [if_neg (show ¬(rL.end_ = s + l - 1 ∧ L₁.length + 1 < rle.runs.length) from
              fun hc => by
                rw [hlen_runs] at hc
                simp only [List.length_nil] at hc
                omega)]
            refine ⟨L₁.length, s + l - 1, rL, rfl, hrL, Nat.le_refl _, ?_, hR1,
              Nat.le_refl _, ?_⟩
            · rw [htakeL]
              omega
            · intro j h1 h2
              omega
          | cons rn L₂' =>
            have hrn : rle.runs[L₁.length + 1]? = some rn := by
              rw [hruns, getElem?_append_offset]
              simp
            have hlink : rL.end_ < rn.end_ :=
              pairwise_ends_getElem? (endsSorted_pairwise hsort) (Nat.lt_succ_self _)
                hrL hrn
            have hta1 : rle.runs.take (L₁.length + 1) = L₁ ++ [rL] := by
              rw [hruns, take_append_offset]
              rfl
            have hstaLrL : startAfter (L₁ ++ [rL]) = rL.end_ + 1 := by
              rw [startAfter, List.getLast?_concat]
            have hwinN : ∀ j, rL.end_ + 1 ≤ j → j ≤ rn.end_ →
                valueAtRuns rle.runs j = some rn.value := by
              intro j h1 h2
              rw [hruns, show L₁ ++ rL :: rn :: L₂' = (L₁ ++ [rL]) ++ rn :: L₂' from by
                simp]
              refine valueAtRuns_window _ ?_ (by rw [hstaLrL]; omega) h2
              have := hsort
              rw [hruns, show L₁ ++ rL :: rn :: L₂' = (L₁ ++ [rL]) ++ rn :: L₂' from by
                simp] at this
              exact endsSorted_append_left this
            rw [if_pos ⟨hfre, by
              rw [hlen_runs]
              simp only [List.length_cons]
              omega⟩]
            simp only [hrn]
            by_cases hrnv : rn.value = v
            · rw [if_pos hrnv]
              refine ⟨L₁.length + 1, rn.end_, rn, rfl, hrn, Nat.le_succ _, ?_,
                Nat.le_refl _, by omega, ?_⟩
              · rw [hta1, hstaLrL]
                omega
              · intro j h1 h2
                rw [hwinN j (by omega) h2, hrnv]
            · rw [if_neg hrnv]
              refine ⟨L₁.length, s + l - 1, rL, rfl, hrL, Nat.le_refl _, ?_, hR1,
                Nat.le_refl _, ?_⟩
              · rw [htakeL]
                omega
              · intro j h1 h2
                omega
        · rw [if_neg (fun hc => hfre hc.1)]
          refine ⟨L₁.length, s + l - 1, rL, rfl, hrL, Nat.le_refl _, ?_, hR1,
            Nat.le_refl _, ?_⟩
          · rw [htakeL]
            omega
          · intro j h1 h2
            omega
    · rw [if_neg hR1]
      have helen : s + l - 1 < rle.len := by omega
      obtain ⟨L₁', rR, L₂'', hruns2, hinfo2, hL₁'lt, herR, hstaL₁'⟩ :=
        index_info_decomp rle hsort helen
      have hrR : rle.runs[L₁'.length]? = some rR := by
        rw [hruns2]
        exact getElem?_append_cons _ _ _
      have htakeR : rle.runs.take L₁'.length = L₁' := by
        rw [hruns2]
        exact take_append_eq _ _
      have hlen2 : rle.runs.length = L₁'.length + 1 + L₂''.length := by
        rw [hruns2]
        simp
        omega
      have hwinR : ∀ j, startAfter L₁' ≤ j → j ≤ rR.end_ →
          valueAtRuns rle.runs j = some rR.value := by
        intro j h1 h2
        rw [hruns2]
        refine valueAtRuns_window _ ?_ h1 h2
        have := hsort
        rw [hruns2] at this
        exact endsSorted_append_left this
      have hLL' : L₁.length < L₁'.length := by
        rcases Nat.lt_or_ge L₁.length L₁'.length with hlt | hge
        · exact hlt
        · exfalso
          rcases Nat.eq_or_lt_of_le hge with heq | hlt2
          · rw [heq] at hrR
            rw [hrR] at hrL
            have : rR = rL := by
              exact (Option.some.injEq _ _).mp hrL
            rw [this] at herR
            omega
          · have := pairwise_ends_getElem? (endsSorted_pairwise hsort) hlt2 hrR hrL
            omega
      simp only [hinfo2, hrR]
      by_cases hsnapR : s + l - 1 < rR.end_ ∧ rR.value = v
      · rw [if_pos hsnapR]
        cases L₂'' with
        | nil =>
          rw [if_neg (show ¬(rR.end_ ≤ rR.end_ ∧ L₁'.length + 1 < rle.runs.length) from
            fun hc => by
              rw [hlen2] at hc
              simp only [List.length_nil] at hc
              omega)]
          refine ⟨L₁'.length, rR.end_, rR, rfl, hrR, by omega, ?_, Nat.le_refl _,
            by omega, ?_⟩
          · rw [htakeR]
            omega
          · intro j h1 h2
            rw [hwinR j (by omega) h2, hsnapR.2]
        | cons rn' T =>
          have hrn' : rle.runs[L₁'.length + 1]? = some rn' := by
            rw [hruns2, getElem?_append_offset]
            simp
          have hlink' : rR.end_ < rn'.end_ :=
            pairwise_ends_getElem? (endsSorted_pairwise hsort) (Nat.lt_succ_self _)
              hrR hrn'
          have hta1' : rle.runs.take (L₁'.length + 1) = L₁' ++ [rR] := by
            rw [hruns2, take_append_offset]
            rfl
          have hstaR : startAfter (L₁' ++ [rR]) = rR.end_ + 1 := by
            rw [startAfter, List.getLast?_concat]
          have hwinN' : ∀ j, rR.end_ + 1 ≤ j → j ≤ rn'.end_ →
              valueAtRuns rle.runs j = some rn'.value := by
            intro j h1 h2
            rw [hruns2, show L₁' ++ rR :: rn' :: T = (L₁' ++ [rR]) ++ rn' :: T from by
              simp]
            refine valueAtRuns_window _ ?_ (by rw [hstaR]; omega) h2
            have := hsort
            rw [hruns2, show L₁' ++ rR :: rn' :: T = (L₁' ++ [rR]) ++ rn' :: T from by
              simp] at this
            exact endsSorted_append_left this
          rw [if_pos ⟨Nat.le_refl _, by
            rw [hlen2]
            simp only [List.length_cons]
            omega⟩]
          simp only [hrn']
          by_cases hrn'v : rn'.value = v
          · rw [if_pos hrn'v]
            refine ⟨L₁'.length + 1, rn'.end_, rn', rfl, hrn', by omega, ?_,
              Nat.le_refl _, by omega, ?_⟩
            · rw [hta1', hstaR]
              omega
            · intro j h1 h2
              by_cases hjr : j ≤ rR.end_
              · rw [hwinR j (by omega) hjr, hsnapR.2]
              · rw [hwinN' j (by omega) h2, hrn'v]
          · rw [if_neg hrn'v]
            refine ⟨L₁'.length, rR.end_, rR, rfl, hrR, by omega, ?_, Nat.le_refl _,
              by omega, ?_⟩
            · rw [htakeR]
              omega
            · intro j h1 h2
              rw [hwinR j (by omega) h2, hsnapR.2]
      · rw [if_neg hsnapR]
        by_cases hflr : rR.end_ ≤ s + l - 1
        · cases L₂'' with
          | nil =>
            rw [if_neg (show ¬(rR.end_ ≤ s + l - 1 ∧ L₁'.length + 1 < rle.runs.length) from
              fun hc => by
                rw [hlen2] at hc
                simp only [List.length_nil] at hc
                omega)]
            refine ⟨L₁'.length, s + l - 1, rR, rfl, hrR, by omega, ?_, herR,
              Nat.le_refl _, ?_⟩
            · rw [htakeR]
              omega
            · intro j h1 h2
              omega
          | cons rn' T =>
            have hrn' : rle.runs[L₁'.length + 1]? = some rn' := by
              rw [hruns2, getElem?_append_offset]
              simp
            have hlink' : rR.end_ < rn'.end_ :=
              pairwise_ends_getElem? (endsSorted_pairwise hsort) (Nat.lt_succ_self _)
                hrR hrn'
            have hta1' : rle.runs.take (L₁'.length + 1) = L₁' ++ [rR] := by
              rw [hruns2, take_append_offset]
              rfl
            have hstaR : startAfter (L₁' ++ [rR]) = rR.end_ + 1 := by
              rw [startAfter, List.getLast?_concat]
            have hwinN' : ∀ j, rR.end_ + 1 ≤ j → j ≤ rn'.end_ →
                valueAtRuns rle.runs j = some rn'.value := by
              intro j h1 h2
              rw [hruns2, show L₁' ++ rR :: rn' :: T = (L₁' ++ [rR]) ++ rn' :: T from by
                simp]
              refine valueAtRuns_window _ ?_ (by rw [hstaR]; omega) h2
              have := hsort
              rw [hruns2, show L₁' ++ rR :: rn' :: T = (L₁' ++ [rR]) ++ rn' :: T from by
                simp] at this
              exact endsSorted_append_left this
            rw [if_pos ⟨hflr, by
              rw [hlen2]
              simp only [List.length_cons]
              omega⟩]
            simp only [hrn']
            by_cases hrn'v : rn'.value = v
            · rw [if_pos hrn'v]
              refine ⟨L₁'.length + 1, rn'.end_, rn', rfl, hrn', by omega, ?_,
                Nat.le_refl _, by omega, ?_⟩
              · rw [hta1', hstaR]
                omega
              · intro j h1 h2
                rw [hwinN' j (by omega) h2, hrn'v]
            · rw [if_neg hrn'v]
              refine ⟨L₁'.length, s + l - 1, rR, rfl, hrR, by omega, ?_, herR,
                Nat.le_refl _, ?_⟩
              · rw [htakeR]
                omega
              · intro j h1 h2
                omega
        · rw [if_neg (fun hc => hflr hc.1)]
          refine ⟨L₁'.length, s + l - 1, rR, rfl, hrR, by omega, ?_, herR,
            Nat.le_refl _, ?_⟩
          · rw [htakeR]
            omega
          · intro j h1 h2
            omega

  obtain ⟨si, st2, rs, hLeq, hrs, hsile, hlb, hub, hs2, hF5⟩ := hstepL
  obtain ⟨ei, e2, re, hReq, hre, heige, helb, heub, he2, hF6⟩ := hstepR
  simp only [hLeq, hReq]
  exact hfin si ei st2 e2 rs re hrs hre (by omega) hlb hub helb heub hs2 he2 hF5 hF6

/-- C2: for any table satisfying the invariant and any in-bounds span
`[s, s + l)`, `set_range s l v` followed by `to_vec` flattening produces
exactly the same sequence as calling `set i v` for each `i` in `[s, s + l)`
in increasing order and then flattening. -/
theorem set_range_eq_set_loop [DecidableEq α] (rle : RleVec α) (h : rle.Inv)
    (s l : Nat) (v : α) (hsl : s + l ≤ rle.len) :
    (rle.set_range s l v).map RleVec.to_vec =
      (setLoop rle s l v).map RleVec.to_vec := by
  match l with
  | 0 =>
    rw [RleVec.set_range, if_pos rfl]
    rfl
  | 1 =>
    rw [RleVec.set_range, if_neg (by omega), if_pos rfl]
    show (rle.set s v).map RleVec.to_vec = ((rle.set s v).bind _).map RleVec.to_vec
    cases hset : rle.set s v with
    | none => rfl
    | some r => rfl
  | (m + 2) =>
    obtain ⟨r1, he1, hs1, hlen1, hptw1⟩ := set_range_spec rle h v (by omega) hsl
    obtain ⟨r2, he2, hinv2, hlen2, hptw2⟩ := setLoop_spec (m + 2) rle h s v hsl
    rw [he1, he2, Option.map_some', Option.map_some']
    congr 1
    refine to_vec_eq_of_valueAt r1 r2 hs1 hinv2.1 (fun j => ?_)
    rw [hptw1 j, hptw2 j]

theorem set_range_eq_set_loop_witness :
    (RleVec.fromSlice [1, 1, 2, 2, 3]).Inv ∧
    1 + 3 ≤ (RleVec.fromSlice [1, 1, 2, 2, 3]).len ∧
    ((RleVec.fromSlice [1, 1, 2, 2, 3]).set_range 1 3 4).map RleVec.to_vec =
      (setLoop (RleVec.fromSlice [1, 1, 2, 2, 3]) 1 3 4).map RleVec.to_vec :=
  ⟨by decide, by decide,
    set_range_eq_set_loop (RleVec.fromSlice [1, 1, 2, 2, 3]) (by decide) 1 3 4
      (by decide)⟩

/-- C6: after a successful `set i v` on an in-bounds index of a table
satisfying the invariant, reading index `i` yields `v`, the logical length
and every other index are unchanged, and `runs_len` changes by at most 2 in
either direction. -/
theorem set_write_read_runs_len [DecidableEq α] (rle : RleVec α) (h : rle.Inv)
    {i : Nat} (hi : i < rle.len) (v : α) :
    ∃ rle', rle.set i v = some rle' ∧ rle'.valueAt i = some v ∧
      rle'.len = rle.len ∧ (∀ j, j ≠ i → rle'.valueAt j = rle.valueAt j) ∧
      rle'.runs_len ≤ rle.runs_len + 2 ∧ rle.runs_len ≤ rle'.runs_len + 2 := by
  obtain ⟨rle', heq, hinv, hlen, hptw, h1, h2⟩ := set_spec rle h v hi
  refine ⟨rle', heq, ?_, hlen, fun j hj => ?_, h1, h2⟩
  · rw [hptw i, if_pos rfl]
  · rw [hptw j, if_neg hj]

theorem set_write_read_runs_len_witness :
    (RleVec.fromSlice [1, 1, 2]).Inv ∧ 1 < (RleVec.fromSlice [1, 1, 2]).len ∧
    ∃ rle', (RleVec.fromSlice [1, 1, 2]).set 1 3 = some rle' ∧
      rle'.valueAt 1 = some 3 ∧
      rle'.len = (RleVec.fromSlice [1, 1, 2]).len ∧
      (∀ j, j ≠ 1 → rle'.valueAt j = (RleVec.fromSlice [1, 1, 2]).valueAt j) ∧
      rle'.runs_len ≤ (RleVec.fromSlice [1, 1, 2]).runs_len + 2 ∧
      (RleVec.fromSlice [1, 1, 2]).runs_len ≤ rle'.runs_len + 2 :=
  ⟨by decide, by decide,
    @set_write_read_runs_len _ _ (RleVec.fromSlice [1, 1, 2]) (by decide)
      1 (by decide) 3⟩

/-- C8: on a table with sorted ends, `run_index i` returns, for every
in-bounds `i`, the position of the first run record whose stored end is
`≥ i`; for every `i ≥ len` it fails (the out-of-bounds panic, modelled as
`none`).  The operation reads the table without modifying it. -/
theorem run_index_locates_first (rle : RleVec α) (hs : EndsSorted rle.runs)
    (i : Nat) :
    (i < rle.len → ∃ p x, rle.run_index i = some p ∧ rle.runs[p]? = some x ∧
      i ≤ x.end_ ∧ ∀ k, k < p → ∀ y, rle.runs[k]? = some y → y.end_ < i) ∧
    (rle.len ≤ i → rle.run_index i = none) := by
  constructor
  · intro hi
    obtain ⟨L₁, r, L₂, hruns, hres, hlt, hle⟩ := run_index_decomp rle hs hi
    refine ⟨L₁.length, r, hres, ?_, hle, ?_⟩
    · rw [hruns]
      exact getElem?_append_cons _ _ _
    · intro k hk y hy
      rw [hruns, getElem?_append_lt _ _ _ hk] at hy
      obtain ⟨hklt, rfl⟩ := List.getElem?_eq_some.mp hy
      exact hlt _ (List.getElem_mem hklt)
  · intro hi
    cases hlast : rle.runs.getLast? with
    | none => simp only [RleVec.run_index, hlast]
    | some lastRun =>
      simp only [RleVec.len, hlast] at hi
      simp only [RleVec.run_index, hlast]
      rw [if_neg (by omega)]

theorem run_index_locates_first_witness :
    EndsSorted (RleVec.fromSlice [7, 7, 8, 9]).runs ∧
    (2 < (RleVec.fromSlice [7, 7, 8, 9]).len →
      ∃ p x, (RleVec.fromSlice [7, 7, 8, 9]).run_index 2 = some p ∧
        (RleVec.fromSlice [7, 7, 8, 9]).runs[p]? = some x ∧ 2 ≤ x.end_ ∧
        ∀ k, k < p → ∀ y, (RleVec.fromSlice [7, 7, 8, 9]).runs[k]? = some y →
          y.end_ < 2) ∧
    ((RleVec.fromSlice [7, 7, 8, 9]).len ≤ 2 →
      (RleVec.fromSlice [7, 7, 8, 9]).run_index 2 = none) :=
  ⟨by decide,
    (run_index_locates_first (RleVec.fromSlice [7, 7, 8, 9]) (by decide) 2).1,
    (run_index_locates_first (RleVec.fromSlice [7, 7, 8, 9]) (by decide) 2).2⟩

/-- C9: when the stored ends are valid `u32` values and the requested count
is a valid `u32`, a `push_n` (or `push`) that would carry the logical length
past `2^32` fails with the overflow condition (`none`) instead of wrapping
the stored run end modulo `2^32`. -/
theorem push_n_overflow_fails [DecidableEq α] (rle : RleVec α) (n : Nat) (v : α)
    (hn : n ≤ u32Max) (hends : ∀ x ∈ rle.runs, x.end_ ≤ u32Max) :
    (2 ^ 32 < rle.len + n → rle.push_n n v = none) ∧
    (2 ^ 32 < rle.len + 1 → rle.push v = none) := by
  have hu : u32Max = 2 ^ 32 - 1 := rfl
  have key : ∀ m, m ≤ u32Max → 2 ^ 32 < rle.len + m → rle.push_n m v = none := by
    intro m hm hover
    cases hlast : rle.runs.getLast? with
    | none =>
      exfalso
      simp only [RleVec.len, hlast] at hover
      omega
    | some lastRun =>
      have hlastle : lastRun.end_ ≤ u32Max :=
        hends lastRun (getLast?_mem_of_eq hlast)
      simp only [RleVec.len, hlast] at hover
      rw [RleVec.push_n, if_neg (show ¬ m = 0 from by omega)]
      simp only [hlast]
      by_cases hval : lastRun.value = v
      · rw [if_pos hval, if_neg (by omega)]
      · rw [if_neg hval, if_neg (by omega)]
  exact ⟨key n hn, fun h1 => key 1 (by rw [hu]; omega) h1⟩

theorem push_n_overflow_fails_witness :
    3 ≤ u32Max ∧
    (∀ x ∈ (RleVec.mk [⟨u32Max, 7⟩] : RleVec Nat).runs, x.end_ ≤ u32Max) ∧
    ((2 ^ 32 < (RleVec.mk [⟨u32Max, 7⟩] : RleVec Nat).len + 3 →
        (RleVec.mk [⟨u32Max, 7⟩] : RleVec Nat).push_n 3 5 = none) ∧
      (2 ^ 32 < (RleVec.mk [⟨u32Max, 7⟩] : RleVec Nat).len + 1 →
        (RleVec.mk [⟨u32Max, 7⟩] : RleVec Nat).push 5 = none)) :=
  ⟨by decide, by decide,
    push_n_overflow_fails (RleVec.mk [⟨u32Max, 7⟩]) 3 5 (by decide) (by decide)⟩

/-- C10: on a well-formed table with `i < len`, `get_hint i hint` returns
the logical value at `i` (with the run position actually used) whenever
`hint < runs_len`; but whenever `hint ≥ runs_len` it panics (`none`) even
though `i` is in bounds — unlike `set_hint`, which falls back to a normal
`set` and still succeeds for the same out-of-range hint. -/
theorem get_hint_vs_set_hint [DecidableEq α] (rle : RleVec α) (h : rle.Inv)
    {i : Nat} (hi : i < rle.len) (hint : Nat) :
    (hint < rle.runs_len → ∃ w p, rle.get_hint i hint = some (w, p) ∧
      rle.valueAt i = some w) ∧
    (rle.runs_len ≤ hint → rle.get_hint i hint = none ∧
      ∀ v, ∃ r p, rle.set_hint i v hint = some (r, p)) := by
  have hsort := h.1
  have hwin_at : ∀ (k : Nat) (x : InternalRun α), rle.runs[k]? = some x →
      startAfter (rle.runs.take k) ≤ i → i ≤ x.end_ →
      rle.valueAt i = some x.value := by
    intro k x hx h1 h2
    obtain ⟨hk, hg⟩ := List.getElem?_eq_some.mp hx
    have hdec : rle.runs = rle.runs.take k ++ x :: rle.runs.drop (k + 1) := by
      rw [← hg, ← List.drop_eq_getElem_cons hk, List.take_append_drop]
    rw [RleVec.valueAt, hdec]
    refine valueAtRuns_window _ ?_ h1 h2
    have hs := hsort
    rw [hdec] at hs
    exact endsSorted_append_left hs
  obtain ⟨L₁, r, L₂, hruns, hridx, hlt, hle⟩ := run_index_decomp rle hsort hi
  have hrat : rle.runs[L₁.length]? = some r := by
    rw [hruns]
    exact getElem?_append_cons _ _ _
  have hvalr : rle.valueAt i = some r.value :=
    hwin_at L₁.length r hrat
      (by
        rw [hruns, take_append_eq]
        exact startAfter_le_of_lt hlt) hle
  constructor
  · intro hh
    have hh' : hint < rle.runs.length := hh
    obtain ⟨hr, hhr⟩ : ∃ x, rle.runs[hint]? = some x :=
      ⟨_, List.getElem?_eq_getElem hh'⟩
    simp only [RleVec.get_hint, hhr]
    by_cases h0 : 0 < hint
    · obtain ⟨q, hq⟩ : ∃ q, rle.runs[hint - 1]? = some q :=
        ⟨_, List.getElem?_eq_getElem (show hint - 1 < rle.runs.length from by omega)⟩
    
      rw [if_pos h0]
      simp only [hq, Option.map_some']
      by_cases hcov : q.end_ + 1 ≤ i ∧ i ≤ hr.end_
      · rw [if_pos hcov]
        exact ⟨hr.value, hint, rfl,
          hwin_at hint hr hhr (by rw [startAfter_take h0 hq]; omega) hcov.2⟩
      · rw [if_neg hcov]
        simp only [hridx, hrat, Option.map_some']
        exact ⟨r.value, L₁.length, rfl, hvalr⟩
    · rw [if_neg h0]
      simp only []
      by_cases hcov : 0 ≤ i ∧ i ≤ hr.end_
      · rw [if_pos hcov]
        have h00 : hint = 0 := by omega
        subst h00
        exact ⟨hr.value, 0, rfl,
          hwin_at 0 hr hhr (by simp [startAfter_nil]) hcov.2⟩
      · rw [if_neg hcov]
        simp only [hridx, hrat, Option.map_some']
        exact ⟨r.value, L₁.length, rfl, hvalr⟩
  · intro hh
    have hhn : rle.runs[hint]? = none := List.getElem?_eq_none hh
    constructor
    · simp only [RleVec.get_hint, hhn]
    · intro v
      obtain ⟨rle', hset, -⟩ := set_spec rle h v hi
      obtain ⟨L₁', r', L₂', hruns', hinfo', -, -, -⟩ :=
        index_info_decomp rle hsort hi
      simp only [RleVec.set, hinfo'] at hset
      simp only [RleVec.set_hint, hhn, hinfo', hset, Option.map_some']
      exact ⟨rle', L₁'.length, rfl⟩

theorem get_hint_vs_set_hint_witness :
    (RleVec.fromSlice [1, 2, 2]).Inv ∧ 1 < (RleVec.fromSlice [1, 2, 2]).len ∧
    ((2 < (RleVec.fromSlice [1, 2, 2]).runs_len →
      ∃ w p, (RleVec.fromSlice [1, 2, 2]).get_hint 1 2 = some (w, p) ∧
        (RleVec.fromSlice [1, 2, 2]).valueAt 1 = some w) ∧
    ((RleVec.fromSlice [1, 2, 2]).runs_len ≤ 2 →
      (RleVec.fromSlice [1, 2, 2]).get_hint 1 2 = none ∧
      ∀ v, ∃ r p, (RleVec.fromSlice [1, 2, 2]).set_hint 1 v 2 = some (r, p))) :=
  ⟨by decide, by decide,
    @get_hint_vs_set_hint _ _ (RleVec.fromSlice [1, 2, 2]) (by decide) 1
      (by decide) 2⟩

theorem push_n_values_differ [DecidableEq α] (rle : RleVec α) (n : Nat) (v : α)
    (h : ValuesDiffer rle.runs) (rle' : RleVec α)
    (heq : rle.push_n n v = some rle') : ValuesDiffer rle'.runs := by
  rw [RleVec.push_n] at heq
  by_cases hn : n = 0
  · rw [if_pos hn] at heq
    cases heq
    exact h
  · rw [if_neg hn] at heq
    cases hlast : rle.runs.getLast? with
    | none =>
      simp only [hlast] at heq
      cases heq
      exact List.chain'_singleton _
    | some lastRun =>
      simp only [hlast] at heq
      have hne : rle.runs ≠ [] := by
        intro hnil
        rw [hnil] at hlast
        simp at hlast
      have hdec : rle.runs = rle.runs.dropLast ++ [lastRun] := by
        conv =>
          lhs
          rw [← List.dropLast_append_getLast hne]
        congr 1
        rw [List.getLast?_eq_getLast _ hne] at hlast
        simp only [Option.some.injEq] at hlast
        rw [hlast]
      have hdv := h
      rw [hdec] at hdv
      obtain ⟨hM, -, hlink, -⟩ :=
        @chain'_decomp _ _ _ _ ([] : List (InternalRun α)) hdv
      by_cases hval : lastRun.value = v
      · rw [if_pos hval] at heq
        by_cases hover : lastRun.end_ + n ≤ u32Max
        · rw [if_pos hover] at heq
          cases heq
          exact chain'_append_cons hM (List.chain'_singleton _) (fun a ha => hlink a ha)
        · rw [if_neg hover] at heq
          cases heq
      · rw [if_neg hval] at heq
        by_cases hover : lastRun.end_ + n ≤ u32Max
        · rw [if_pos hover] at heq
          cases heq
          rw [hdec, List.append_assoc]
          refine chain'_append_cons hM ?_ (fun a ha => hlink a ha)
          exact List.chain'_cons.mpr ⟨fun hcc => hval hcc, List.chain'_singleton _⟩
        · rw [if_neg hover] at heq
          cases heq

/-- C5 (amended): bulk extend from a pre-grouped run sequence routes every
supplied run through `push_n`, which coalesces with the trailing record when
values agree — so, contrary to the spec's claim, it cannot create adjacent
equal-valued records: I2 is preserved for every input, grouped or not. -/
theorem extend_runs_preserves_values_differ [DecidableEq α] :
    ∀ (rs : List (Run α)) (rle : RleVec α), ValuesDiffer rle.runs →
      ∀ rle', rle.extendRuns rs = some rle' → ValuesDiffer rle'.runs := by
  intro rs
  induction rs with
  | nil =>
    intro rle h rle' heq
    cases heq
    exact h
  | cons r rest ih =>
    intro rle h rle' heq
    rw [RleVec.extendRuns] at heq
    cases hp : rle.push_n r.len r.value with
    | none =>
      simp only [hp] at heq
      cases heq
    | some rle2 =>
      simp only [hp] at heq
      exact ih rle2 (push_n_values_differ rle r.len r.value h rle2 hp) rle' heq

theorem extend_runs_preserves_values_differ_witness :
    ValuesDiffer (RleVec.fromSlice [1, 1]).runs ∧
    (RleVec.fromSlice [1, 1]).extendRuns [⟨0, 2, 1⟩] = some (RleVec.mk [⟨3, 1⟩]) ∧
    ValuesDiffer (RleVec.mk [⟨3, 1⟩] : RleVec Nat).runs :=
  ⟨by decide, by decide,
    extend_runs_preserves_values_differ [⟨0, 2, 1⟩] (RleVec.fromSlice [1, 1])
      (by decide) (RleVec.mk [⟨3, 1⟩]) (by decide)⟩

/-- C5 (counterexample to the spec's wording): extending `[1, 1]` (one run
of value `1`) with the supplied run `{start 0, len 2, value 1}` — whose
value equals the existing last run's value — coalesces into the single
record `⟨end 3, value 1⟩` rather than leaving two adjacent equal-valued
records. -/
theorem extend_runs_counterexample :
    (RleVec.fromSlice [1, 1]).extendRuns [⟨0, 2, 1⟩] =
      some (RleVec.mk [⟨3, 1⟩]) ∧
    (RleVec.mk [⟨3, 1⟩] : RleVec Nat).runs_len = 1 ∧
    (RleVec.mk [⟨3, 1⟩] : RleVec Nat).to_vec = [1, 1, 1, 1] := by
  refine ⟨by decide, by decide, by decide⟩

/-- C1 (refuting evaluation): the state `[1, 2, 1]` is reachable from the
empty table by three `push` calls and satisfies the invariant, but a single
`remove` at index 1 yields the run table `[⟨0, 1⟩, ⟨1, 1⟩]`, whose two
adjacent records carry equal values — the claimed reachable-state invariant
I2 is violated (the merge guard `runs_len() > 2` skips the 2-record case). -/
theorem reachable_state_invariant_violated :
    (((RleVec.new : RleVec Nat).push 1).bind (·.push 2)).bind (·.push 1) =
      some (RleVec.fromSlice [1, 2, 1]) ∧
    (RleVec.fromSlice [1, 2, 1]).Inv ∧
    (RleVec.fromSlice [1, 2, 1]).remove 1 =
      some (2, RleVec.mk [⟨0, 1⟩, ⟨1, 1⟩]) ∧
    ¬ (RleVec.mk [⟨0, 1⟩, ⟨1, 1⟩] : RleVec Nat).Inv :=
  ⟨by decide, by decide, by decide, by decide⟩

/-- C3 (refuting evaluation): `insert(3, 4)` on `[1, 2, 3]` succeeds, but
the immediately following `remove(3)` panics (`none`) instead of returning
`4` and restoring the prior table: after deleting the trailing size-1
record, three records remain, so the merge guard `runs_len() > 2` evaluates
`self.runs[p].value` at the out-of-bounds position `p = 3`. -/
theorem insert_remove_not_inverse :
    (RleVec.fromSlice [1, 2, 3]).insert 3 4 =
      some (RleVec.mk [⟨0, 1⟩, ⟨1, 2⟩, ⟨2, 3⟩, ⟨3, 4⟩]) ∧
    (RleVec.mk [⟨0, 1⟩, ⟨1, 2⟩, ⟨2, 3⟩, ⟨3, 4⟩] : RleVec Nat).Inv ∧
    3 ≤ (RleVec.fromSlice [1, 2, 3]).len ∧
    (RleVec.mk [⟨0, 1⟩, ⟨1, 2⟩, ⟨2, 3⟩, ⟨3, 4⟩] : RleVec Nat).remove 3 = none :=
  ⟨by decide, by decide, by decide, by decide⟩

/-- C4 (refuting evaluation): removing index 1 of `[1, 2, 1]` deletes the
middle size-1 record and leaves exactly two records whose values are both
`1`; the claim requires them to be merged ("at least two records remain"),
but the code's guard demands `runs_len() > 2`, so the adjacent equal-valued
pair is left in the table. -/
theorem remove_skips_two_record_merge :
    (RleVec.fromSlice [1, 2, 1]).remove 1 =
      some (2, RleVec.mk [⟨0, 1⟩, ⟨1, 1⟩]) ∧
    2 ≤ (RleVec.mk [⟨0, 1⟩, ⟨1, 1⟩] : RleVec Nat).runs_len ∧
    (RleVec.mk [⟨0, 1⟩, ⟨1, 1⟩] : RleVec Nat).runs.map InternalRun.value =
      [1, 1] ∧
    ¬ ValuesDiffer (RleVec.mk [⟨0, 1⟩, ⟨1, 1⟩] : RleVec Nat).runs :=
  ⟨by decide, by decide, by decide, by decide⟩

theorem valueAtRuns_at_idx {runs : List (InternalRun α)} (hs : EndsSorted runs)
    {k i : Nat} {x : InternalRun α} (hx : runs[k]? = some x)
    (h1 : startAfter (runs.take k) ≤ i) (h2 : i ≤ x.end_) :
    valueAtRuns runs i = some x.value := by
  obtain ⟨hk, hg⟩ := List.getElem?_eq_some.mp hx
  have hdec : runs = runs.take k ++ x :: runs.drop (k + 1) := by
    rw [← hg, ← List.drop_eq_getElem_cons hk, List.take_append_drop]
  rw [hdec]
  refine valueAtRuns_window _ ?_ h1 h2
  rw [hdec] at hs
  exact endsSorted_append_left hs

theorem startAfter_take_le_end {runs : List (InternalRun α)}
    (hs : EndsSorted runs) {k : Nat} {x : InternalRun α}
    (hx : runs[k]? = some x) : startAfter (runs.take k) ≤ x.end_ := by
  cases k with
  | zero => simp [startAfter]
  | succ m =>
    obtain ⟨hk, -⟩ := List.getElem?_eq_some.mp hx
    obtain ⟨p, hp⟩ : ∃ p, runs[m]? = some p :=
      ⟨_, List.getElem?_eq_getElem (by omega)⟩
    rw [startAfter_take (Nat.zero_lt_succ m) (by simpa using hp)]
    have := pairwise_ends_getElem? (endsSorted_pairwise hs) (Nat.lt_succ_self m)
      hp hx
    omega

theorem drop_take_cons (l : List β) (a b : Nat) (hab : a < b) (v : β)
    (hv : l[a]? = some v) :
    (l.take b).drop a = v :: (l.take b).drop (a + 1) := by
  obtain ⟨ha, hg⟩ := List.getElem?_eq_some.mp hv
  have hlen : a < (l.take b).length := by
    rw [List.length_take]
    omega
  rw [List.drop_eq_getElem_cons hlen]
  congr 1
  rw [List.getElem_take]
  exact hg

theorem take_drop_snoc (l : List β) (f q : Nat) (hfq : f ≤ q) (v : β)
    (hv : l[q]? = some v) :
    (l.drop f).take (q + 1 - f) = (l.drop f).take (q - f) ++ [v] := by
  have hq : (l.drop f)[q - f]? = some v := by
    rw [List.getElem?_drop, show f + (q - f) = q from by omega]
    exact hv
  rw [show q + 1 - f = (q - f) + 1 from by omega, List.take_succ, hq]
  rfl

theorem iterInv_init (rle : RleVec α) (hs : EndsSorted rle.runs) :
    IterInv rle rle.iter := by
  show IterInv rle ⟨rle, 0, 0, rle.len, rle.runs.length - 1⟩
  unfold IterInv
  refine ⟨rfl, Nat.zero_le _, Nat.le_refl _, ?_, ?_⟩
  · intro hlt
    simp only at hlt ⊢
    have hne : rle.runs ≠ [] := by
      intro hnil
      simp only [RleVec.len, hnil, List.getLast?_nil] at hlt
      omega
    obtain ⟨r0, h0⟩ : ∃ r0, rle.runs[0]? = some r0 := by
      cases hr : rle.runs with
      | nil => exact absurd hr hne
      | cons a t => exact ⟨a, by simp [hr]⟩
    exact ⟨r0, h0, by simp [startAfter], Nat.zero_le _⟩
  · intro hlt
    simp only at hlt ⊢
    have hne : rle.runs ≠ [] := by
      intro hnil
      simp only [RleVec.len, hnil, List.getLast?_nil] at hlt
      omega
    obtain ⟨lastRun, hlast⟩ : ∃ x, rle.runs.getLast? = some x := by
      cases hr : rle.runs.getLast? with
      | none => exact absurd (List.getLast?_eq_none_iff.mp hr) hne
      | some x => exact ⟨x, rfl⟩
    have hlen : rle.len = lastRun.end_ + 1 := by
      simp only [RleVec.len, hlast]
    have hlastat : rle.runs[rle.runs.length - 1]? = some lastRun := by
      rw [← List.getLast?_eq_getElem?]
      exact hlast
    refine ⟨lastRun, hlastat, ?_, by rw [hlen]⟩
    have := startAfter_take_le_end hs hlastat
    omega

theorem iter_next_spec (rle : RleVec α) (hs : EndsSorted rle.runs) (it : Iter α)
    (hinv : IterInv rle it) :
    (it.index = it.index_back → it.next = none) ∧
    (it.index < it.index_back → ∃ v it', it.next = some (v, it') ∧
      rle.valueAt it.index = some v ∧ IterInv rle it' ∧
      it'.index = it.index + 1 ∧ it'.index_back = it.index_back) := by
  obtain ⟨hrle, hle, hback, hF, hB⟩ := hinv
  constructor
  · intro heq
    rw [Iter.next, if_pos heq]
  · intro hlt
    obtain ⟨r, hr, hlo, hhi⟩ := hF hlt
    rw [Iter.next, if_neg (show ¬ it.index = it.index_back from by omega), hrle]
    simp only [hr]
    by_cases hadv : r.end_ < it.index + 1
    · rw [if_pos hadv]
      refine ⟨r.value, _, rfl, valueAtRuns_at_idx hs hr hlo hhi, ?_, rfl, rfl⟩
      unfold IterInv
      dsimp only
      refine ⟨rfl, by omega, hback, ?_, ?_⟩
      · intro h2
        have hxe : it.index = r.end_ := by omega
        show ∃ r', rle.runs[it.run_index + 1]? = some r' ∧
          startAfter (rle.runs.take (it.run_index + 1)) ≤ it.index + 1 ∧
          it.index + 1 ≤ r'.end_
        have hsta1 : startAfter (rle.runs.take (it.run_index + 1)) = r.end_ + 1 :=
          startAfter_take (Nat.zero_lt_succ _) (by simpa using hr)
        have hlt1 : it.run_index + 1 < rle.runs.length := by
          by_contra hge
          have htk : rle.runs.take (it.run_index + 1) = rle.runs :=
            List.take_of_length_le (by omega)
          rw [htk, ← len_eq_startAfter] at hsta1
          omega
        obtain ⟨r', hr'⟩ : ∃ r', rle.runs[it.run_index + 1]? = some r' :=
          ⟨_, List.getElem?_eq_getElem hlt1⟩
        have hrr' := pairwise_ends_getElem? (endsSorted_pairwise hs)
          (Nat.lt_succ_self _) hr hr'
        exact ⟨r', hr', by omega, by omega⟩
      · intro h2
        exact hB (by omega)
    · rw [if_neg hadv]
      refine ⟨r.value, _, rfl, valueAtRuns_at_idx hs hr hlo hhi, ?_, rfl, rfl⟩
      unfold IterInv
      dsimp only
      refine ⟨rfl, by omega, hback, ?_, ?_⟩
      · intro h2
        exact ⟨r, hr, by omega, by omega⟩
      · intro h2
        exact hB (by omega)

theorem iter_next_back_spec (rle : RleVec α) (hs : EndsSorted rle.runs)
    (it : Iter α) (hinv : IterInv rle it) :
    (it.index_back = it.index → it.next_back = none) ∧
    (it.index < it.index_back → ∃ v it', it.next_back = some (v, it') ∧
      rle.valueAt (it.index_back - 1) = some v ∧ IterInv rle it' ∧
      it'.index = it.index ∧ it'.index_back = it.index_back - 1) := by
  obtain ⟨hrle, hle, hback, hF, hB⟩ := hinv
  constructor
  · intro heq
    rw [Iter.next_back, if_pos heq]
  · intro hlt
    obtain ⟨r, hrb, hlo, hhi⟩ := hB hlt
    rw [Iter.next_back, if_neg (show ¬ it.index_back = it.index from by omega),
      hrle]
    simp only []
    by_cases h0 : 0 < it.run_index_back
    · obtain ⟨hk, -⟩ := List.getElem?_eq_some.mp hrb
      obtain ⟨p, hp⟩ : ∃ p, rle.runs[it.run_index_back - 1]? = some p :=
        ⟨_, List.getElem?_eq_getElem (by omega)⟩
      rw [if_pos h0]
      simp only [hp, Option.map_some']
      have hsta : startAfter (rle.runs.take it.run_index_back) = p.end_ + 1 :=
        startAfter_take h0 hp
      by_cases hq : it.index_back - 1 ≤ p.end_
      · have hqe : it.index_back - 1 = p.end_ := by omega
        rw [if_pos hq]
        simp only [hp]
        refine ⟨p.value, _, rfl, ?_, ?_, rfl, rfl⟩
        · exact valueAtRuns_at_idx hs hp
            (by
              have := startAfter_take_le_end hs hp
              omega) (by omega)
        · unfold IterInv
          dsimp only
          refine ⟨rfl, by omega, by omega, ?_, ?_⟩
          · intro h2
            exact hF (by omega)
          · intro h2
            refine ⟨p, hp, ?_, by omega⟩
            have := startAfter_take_le_end hs hp
            omega
      · rw [if_neg hq]
        simp only [hrb]
        refine ⟨r.value, _, rfl, ?_, ?_, rfl, rfl⟩
        · exact valueAtRuns_at_idx hs hrb (by omega) (by omega)
        · unfold IterInv
          dsimp only
          refine ⟨rfl, by omega, by omega, ?_, ?_⟩
          · intro h2
            exact hF (by omega)
          · intro h2
            exact ⟨r, hrb, by omega, by omega⟩
    · rw [if_neg h0]
      have h00 : it.run_index_back = 0 := by omega
      simp only [hrb]
      refine ⟨r.value, _, rfl, ?_, ?_, rfl, rfl⟩
      · refine valueAtRuns_at_idx hs hrb ?_ (by omega)
        rw [h00]
        simp [startAfter]
      · unfold IterInv
        dsimp only
        refine ⟨rfl, by omega, by omega, ?_, ?_⟩
        · intro h2
          exact hF (by omega)
        · intro h2
          refine ⟨r, hrb, ?_, by omega⟩
          rw [h00]
          simp [startAfter]

theorem runOps_spec (rle : RleVec α) (hs : EndsSorted rle.runs) :
    ∀ (ops : List Bool) (it : Iter α), IterInv rle it →
      ((it.runOps ops).1 =
        (rle.to_vec.take (it.runOps ops).2.2.index).drop it.index) ∧
      ((it.runOps ops).2.1 =
        ((rle.to_vec.drop (it.runOps ops).2.2.index_back).take
          (it.index_back - (it.runOps ops).2.2.index_back)).reverse) ∧
      IterInv rle (it.runOps ops).2.2 ∧
      it.index ≤ (it.runOps ops).2.2.index ∧
      (it.runOps ops).2.2.index_back ≤ it.index_back := by
  intro ops
  induction ops with
  | nil =>
    intro it hinv
    simp only [Iter.runOps]
    refine ⟨?_, ?_, hinv, Nat.le_refl _, Nat.le_refl _⟩
    · exact (List.drop_eq_nil_of_le (by rw [List.length_take]; omega)).symm
    · simp
  | cons op ops ih =>
    intro it hinv
    have hle := hinv.2.1
    cases op with
    | true =>
      rcases Nat.eq_or_lt_of_le hle with heq | hlt
      · have hnone := (iter_next_spec rle hs it hinv).1 heq
        simp only [Iter.runOps, hnone]
        exact ih it hinv
      · obtain ⟨v, it', hnext, hval, hinv', hidx, hib⟩ :=
          (iter_next_spec rle hs it hinv).2 hlt
        simp only [Iter.runOps, hnext]
        obtain ⟨ih1, ih2, ihinv, ihm1, ihm2⟩ := ih it' hinv'
        have hv : rle.to_vec[it.index]? = some v := by
          rw [to_vec_getElem? rle hs]
          exact hval
        refine ⟨?_, ?_, ihinv, by omega, by omega⟩
        · rw [drop_take_cons rle.to_vec it.index (it'.runOps ops).2.2.index
            (by omega) v hv, ih1, hidx]
        · rw [ih2, hib]
    | false =>
      rcases Nat.eq_or_lt_of_le hle with heq | hlt
      · have hnone := (iter_next_back_spec rle hs it hinv).1 heq.symm
        simp only [Iter.runOps, hnone]
        exact ih it hinv
      · obtain ⟨v, it', hnb, hval, hinv', hidx, hib⟩ :=
          (iter_next_back_spec rle hs it hinv).2 hlt
        simp only [Iter.runOps, hnb]
        obtain ⟨ih1, ih2, ihinv, ihm1, ihm2⟩ := ih it' hinv'
        have hv : rle.to_vec[it.index_back - 1]? = some v := by
          rw [to_vec_getElem? rle hs]
          exact hval
        refine ⟨?_, ?_, ihinv, by omega, by omega⟩
        · rw [ih1, hidx]
        · rw [show it.index_back - (it'.runOps ops).2.2.index_back =
              (it.index_back - 1) + 1 - (it'.runOps ops).2.2.index_back from by
              omega,
            take_drop_snoc rle.to_vec (it'.runOps ops).2.2.index_back
              (it.index_back - 1) (by omega) v hv,
            List.reverse_append, ih2, hib]
          rfl

/-- C7: for every table with sorted ends and every interleaving of `next`
(`true`) and `next_back` (`false`) calls on `iter()`, the forward cursor's
yields form exactly the prefix of the flattened sequence up to the final
forward position, the backward cursor's yields are exactly the reversed
suffix from the final backward position, the cursors never cross or pass
the length (so no element is skipped or visited twice), and once the two
cursors meet both `next` and `next_back` return `None`. -/
theorem iter_interleavings_partition (rle : RleVec α) (hs : EndsSorted rle.runs)
    (ops : List Bool) :
    ((rle.iter.runOps ops).1 =
      rle.to_vec.take (rle.iter.runOps ops).2.2.index) ∧
    ((rle.iter.runOps ops).2.1 =
      (rle.to_vec.drop (rle.iter.runOps ops).2.2.index_back).reverse) ∧
    (rle.iter.runOps ops).2.2.index ≤ (rle.iter.runOps ops).2.2.index_back ∧
    (rle.iter.runOps ops).2.2.index_back ≤ rle.len ∧
    ((rle.iter.runOps ops).2.2.index = (rle.iter.runOps ops).2.2.index_back →
      (rle.iter.runOps ops).2.2.next = none ∧
      (rle.iter.runOps ops).2.2.next_back = none) := by
  obtain ⟨h1, h2, hinv, hm1, hm2⟩ := runOps_spec rle hs ops rle.iter
    (iterInv_init rle hs)
  refine ⟨?_, ?_, hinv.2.1, hinv.2.2.1, fun hmet => ?_⟩
  · rw [h1]
    rfl
  · rw [h2]
    congr 1
    have hib : (rle.iter.runOps ops).2.2.index_back ≤ rle.len := hinv.2.2.1
    have hlen : rle.to_vec.length = rle.len := to_vec_length rle hs
    have : rle.iter.index_back = rle.len := rfl
    rw [this]
    refine List.take_of_length_le ?_
    rw [List.length_drop, hlen]
  · exact ⟨(iter_next_spec rle hs _ hinv).1 hmet,
      (iter_next_back_spec rle hs _ hinv).1 hmet.symm⟩

theorem iter_interleavings_partition_witness :
    EndsSorted (RleVec.fromSlice [5, 5, 6]).runs ∧
    (((RleVec.fromSlice [5, 5, 6]).iter.runOps [true, false, true, true]).1 =
      (RleVec.fromSlice [5, 5, 6]).to_vec.take
        ((RleVec.fromSlice [5, 5, 6]).iter.runOps
          [true, false, true, true]).2.2.index) ∧
    (((RleVec.fromSlice [5, 5, 6]).iter.runOps [true, false, true, true]).2.1 =
      ((RleVec.fromSlice [5, 5, 6]).to_vec.drop
        ((RleVec.fromSlice [5, 5, 6]).iter.runOps
          [true, false, true, true]).2.2.index_back).reverse) ∧
    ((RleVec.fromSlice [5, 5, 6]).iter.runOps
        [true, false, true, true]).2.2.index ≤
      ((RleVec.fromSlice [5, 5, 6]).iter.runOps
        [true, false, true, true]).2.2.index_back ∧
    ((RleVec.fromSlice [5, 5, 6]).iter.runOps
        [true, false, true, true]).2.2.index_back ≤
      (RleVec.fromSlice [5, 5, 6]).len ∧
    (((RleVec.fromSlice [5, 5, 6]).iter.runOps
          [true, false, true, true]).2.2.index =
        ((RleVec.fromSlice [5, 5, 6]).iter.runOps
          [true, false, true, true]).2.2.index_back →
      ((RleVec.fromSlice [5, 5, 6]).iter.runOps
        [true, false, true, true]).2.2.next = none ∧
      ((RleVec.fromSlice [5, 5, 6]).iter.runOps
        [true, false, true, true]).2.2.next_back = none) :=
  ⟨by decide,
    iter_interleavings_partition (RleVec.fromSlice [5, 5, 6]) (by decide)
      [true, false, true, true]⟩
